import Mathlib

/-!
Verification of the Chinese Postman solver (`problema_carteiro_chines.py`).

The embedding models the program over vertex/edge lists with natural-number
weights.  Graphs (`G`) carry a node list and an edge list; the input graph is a
simple graph (well-formedness predicate `WF`), the eulerized graph is a
multigraph over the same representation.  Library routines used by the source
(`networkx` shortest paths, minimum-weight matching, Eulerian circuits,
connectivity) are modelled by executable definitions with the semantics the
source relies on: shortest paths as minima over simple paths, matching as an
exact minimum-weight maximum-cardinality matching, the Eulerian circuit by a
recursive Hierholzer traversal, and connectivity by reachability.
-/

namespace CPP

/-- An edge of a weighted (multi)graph: the two endpoints and a weight. -/
abbrev Edge := Nat × Nat × Nat

/-- A weighted graph: a vertex list and an edge list (parallel edges allowed
in the multigraph produced by eulerization). -/
structure G where
  nodes : List Nat
  edges : List Edge
deriving DecidableEq, Repr

/-- Both endpoints of every edge, flattened into one list. -/
def endpointsL (es : List Edge) : List Nat :=
  es.flatMap (fun e => [e.1, e.2.1])

/-- Degree of a vertex: the number of incident edge endpoints
(models `graph.degree(node)`). -/
def degL (es : List Edge) (v : Nat) : Nat :=
  (endpointsL es).count v

/-- `find_odd_degree_vertices`: the vertices of the graph whose degree is odd,
in node order. -/
def find_odd_degree_vertices (g : G) : List Nat :=
  g.nodes.filter (fun v => degL g.edges v % 2 != 0)

/-- The unordered-pair normal form of a vertex pair. -/
def np (a b : Nat) : Nat × Nat := (min a b, max a b)

/-- Weight lookup `graph[u][v]['weight']`: the weight of the first stored edge
between `u` and `v` (for a multigraph this is the key-`0` edge). -/
def edgeWeight (g : G) (u v : Nat) : Nat :=
  match g.edges.find? (fun e => (e.1 == u && e.2.1 == v) || (e.1 == v && e.2.1 == u)) with
  | some e => e.2.2
  | none => 0

/-- Adjacency test: is there an edge between `a` and `b`? -/
def adjB (es : List Edge) (a b : Nat) : Bool :=
  es.any (fun e => (e.1 == a && e.2.1 == b) || (e.1 == b && e.2.1 == a))

/-- The neighbors of `u`, one entry per incident edge. -/
def neighborsOf (es : List Edge) (u : Nat) : List Nat :=
  es.filterMap (fun e =>
    if e.1 == u then some e.2.1 else if e.2.1 == u then some e.1 else none)

/-- All simple paths from `u` to `v` avoiding the vertices in `avoid`,
bounded by `fuel` steps. -/
def pathsFrom (es : List Edge) : Nat → Nat → Nat → List Nat → List (List Nat)
  | fuel, u, v, avoid =>
    if u = v then [[u]]
    else
      match fuel with
      | 0 => []
      | fuel' + 1 =>
        ((neighborsOf es u).filter (fun w => !(u :: avoid).contains w)).flatMap
          (fun w => (pathsFrom es fuel' w v (u :: avoid)).map (fun p => u :: p))

/-- All simple paths between `u` and `v` in the graph. -/
def simplePaths (g : G) (u v : Nat) : List (List Nat) :=
  pathsFrom g.edges g.nodes.length u v []

/-- `nx.has_path(graph, u, v)`: some path between `u` and `v` exists. -/
def hasPathB (g : G) (u v : Nat) : Bool :=
  !(simplePaths g u v).isEmpty

/-- The total weight of a path, as the sum of the looked-up weights of its
consecutive vertex pairs. -/
def pathW (g : G) : List Nat → Nat
  | a :: b :: rest => edgeWeight g a b + pathW g (b :: rest)
  | _ => 0

/-- `nx.shortest_path(graph, u, v, weight='weight')`: a minimum-weight simple
path between `u` and `v` (`none` when no path exists). -/
def shortest_path (g : G) (u v : Nat) : Option (List Nat) :=
  (simplePaths g u v).argmin (pathW g)

/-- `nx.shortest_path_length(graph, u, v, weight='weight')`, with default `0`
(only used where a path exists). -/
def dist0 (g : G) (u v : Nat) : Nat :=
  ((shortest_path g u v).map (pathW g)).getD 0

/-- `itertools.combinations(l, 2)`: all ordered position-pairs of a list. -/
def allPairs : List Nat → List (Nat × Nat)
  | [] => []
  | x :: xs => xs.map (fun y => (x, y)) ++ allPairs xs

/-- The auxiliary complete graph over the odd vertices: an edge weighted by the
shortest-path distance for every pair joined by a path. -/
def buildK (g : G) (odd : List Nat) : List Edge :=
  (allPairs odd).filterMap (fun p =>
    if hasPathB g p.1 p.2 then some (p.1, p.2, dist0 g p.1 p.2) else none)

/-- A list of edges forms a matching when no vertex occurs twice among its
endpoints. -/
def isMatchingL (M : List Edge) : Bool :=
  decide (endpointsL M).Nodup

/-- All matchings contained in an edge list. -/
def allMatchings (es : List Edge) : List (List Edge) :=
  es.sublists.filter isMatchingL

/-- The size of a largest matching contained in the edge list. -/
def maxMatchCard (es : List Edge) : Nat :=
  ((allMatchings es).map List.length).foldr max 0

/-- `nx.algorithms.matching.min_weight_matching`: an exact minimum-weight
matching among the maximum-cardinality matchings of the graph. -/
def min_weight_matching (es : List Edge) : List (Nat × Nat) :=
  match ((allMatchings es).filter (fun M => M.length == maxMatchCard es)).argmin
      (fun M => (M.map (fun e => e.2.2)).sum) with
  | some M => M.map (fun e => (e.1, e.2.1))
  | none => []

instance exceptDecEq {e a : Type} [DecidableEq e] [DecidableEq a] : DecidableEq (Except e a) := fun x y =>
  match x, y with
  | .ok u, .ok v =>
    if h : u = v then isTrue (by rw [h]) else isFalse (fun hh => by cases hh; exact h rfl)
  | .error u, .error v =>
    if h : u = v then isTrue (by rw [h]) else isFalse (fun hh => by cases hh; exact h rfl)
  | .ok _, .error _ => isFalse (fun hh => by cases hh)
  | .error _, .ok _ => isFalse (fun hh => by cases hh)

/-- Errors the modelled library calls can raise. -/
inductive Err where
  | notEulerian
  | pointless
  | keyError
  | noPath
deriving DecidableEq, Repr

/-- The consecutive vertex pairs of a path. -/
def dupSteps : List Nat → List (Nat × Nat)
  | a :: b :: rest => (a, b) :: dupSteps (b :: rest)
  | _ => []

/-- The duplicated edges added for one matched pair: each edge of the shortest
path, with the weight looked up in the original graph. -/
def addPathEdges (g : G) (p : List Nat) : List Edge :=
  (dupSteps p).map (fun s => (s.1, s.2, edgeWeight g s.1 s.2))

/-- Deduplicate a list keeping the first occurrence of each element. -/
def dedupFirst : List Nat → List Nat
  | [] => []
  | x :: xs => x :: (dedupFirst xs).filter (fun y => y != x)

/-- The nodes of a graph built purely by `add_edge` calls: the endpoints in
insertion order. -/
def nodesFromEdges (es : List Edge) : List Nat :=
  dedupFirst (endpointsL es)

/-- The loop of `add_minimum_weight_matching` over the matched pairs:
duplicate each shortest path onto the edge list and accumulate the added
weight. -/
def ammGo (g : G) : List (Nat × Nat) → List Edge → Nat → Except Err (List Edge × Nat)
  | [], es, w => .ok (es, w)
  | (u, v) :: rest, es, w =>
    match shortest_path g u v with
    | none => .error .noPath
    | some p => ammGo g rest (es ++ addPathEdges g p) (w + ((addPathEdges g p).map (fun e => e.2.2)).sum)

/-- `add_minimum_weight_matching`: eulerize the graph by duplicating the
shortest paths of a minimum-weight matching over the odd-degree vertices. -/
def add_minimum_weight_matching (g : G) : Except Err (G × Nat) :=
  let odd := find_odd_degree_vertices g
  if odd.isEmpty then .ok (g, 0)
  else
    match ammGo g (min_weight_matching (buildK g odd)) g.edges 0 with
    | .ok (es, w) => .ok (⟨nodesFromEdges es, es⟩, w)
    | .error e => .error e

/-- Is the edge incident to the vertex? -/
def incidentB (x : Nat) (e : Edge) : Bool :=
  e.1 == x || e.2.1 == x

/-- The endpoint of an incident edge opposite to `x`. -/
def otherEnd (x : Nat) (e : Edge) : Nat :=
  if e.1 == x then e.2.1 else e.1

/-- Remove the first edge incident to `x` from the edge list, returning it
together with the remaining edges. -/
def pickEdge (x : Nat) : List Edge → Option (Edge × List Edge)
  | [] => none
  | e :: es =>
    if incidentB x e then some (e, es)
    else
      match pickEdge x es with
      | some (f, es') => some (f, e :: es')
      | none => none

/-- Hierholzer traversal: follow and consume unused edges depth-first from
`x`, producing the traversed steps in circuit order, together with the edges
left unconsumed. -/
def euler : Nat → List Edge → Nat → List (Nat × Nat) × List Edge
  | 0, es, _ => ([], es)
  | fuel + 1, es, x =>
    match pickEdge x es with
    | none => ([], es)
    | some (e, es') =>
      let y := otherEnd x e
      let A := euler fuel es' y
      let B := euler fuel A.2 x
      (B.1 ++ (x, y) :: A.1, B.2)

/-- `nx.is_connected`: every node is reachable from the first node; undefined
(raises) on a graph without nodes. -/
def is_connected (mg : G) : Except Err Bool :=
  match mg.nodes with
  | [] => .error .pointless
  | n :: _ => .ok (mg.nodes.all (fun v => hasPathB mg n v))

/-- `nx.is_eulerian`: every vertex has even degree and the graph is
connected. -/
def is_eulerian (mg : G) : Except Err Bool :=
  if mg.nodes.all (fun v => degL mg.edges v % 2 == 0) then is_connected mg
  else .ok false

/-- `find_eulerian_circuit`: check the graph is Eulerian, resolve the start
vertex, and extract an Eulerian circuit. -/
def find_eulerian_circuit (mg : G) (s? : Option Nat) : Except Err (List (Nat × Nat)) :=
  match is_eulerian mg with
  | .error e => .error e
  | .ok false => .error .notEulerian
  | .ok true =>
    let s := match s? with
      | some s => s
      | none => mg.nodes.headD 0
    if s ∈ mg.nodes then .ok (euler mg.edges.length mg.edges s).1
    else .error .keyError

/-- The result of `solve_chinese_postman`: the total cost and the weighted
circuit. -/
structure Solution where
  total_cost : Nat
  circuit : List (Nat × Nat × Nat)
deriving DecidableEq, Repr

/-- `solve_chinese_postman`: sum the original edge weights, eulerize, extract
an Eulerian circuit, and annotate each step with the key-`0` weight of its
vertex pair in the eulerized graph. -/
def solve_chinese_postman (g : G) (s? : Option Nat) : Except Err Solution :=
  let oc := (g.edges.map (fun e => edgeWeight g e.1 e.2.1)).sum
  match add_minimum_weight_matching g with
  | .error e => .error e
  | .ok (eg, added) =>
    match find_eulerian_circuit eg s? with
    | .error e => .error e
    | .ok circuit =>
      .ok ⟨oc + added, circuit.map (fun s => (s.1, s.2, edgeWeight eg s.1 s.2))⟩

/-- Well-formed input graph: distinct nodes, edge endpoints are listed nodes,
no self-loops and at most one edge per vertex pair (the `nx.Graph` input
invariants together with the spec's exclusion of self-loops). -/
def WF (g : G) : Prop :=
  g.nodes.Nodup ∧
  (∀ e ∈ g.edges, e.1 ∈ g.nodes ∧ e.2.1 ∈ g.nodes ∧ e.1 ≠ e.2.1) ∧
  (g.edges.map (fun e => np e.1 e.2.1)).Nodup

instance (g : G) : Decidable (WF g) := by
  unfold WF; infer_instance

/-- Connectivity of a graph, as the model's `is_connected` computes it. -/
def connectedB (g : G) : Bool :=
  match g.nodes with
  | [] => false
  | n :: _ => g.nodes.all (fun v => hasPathB g n v)

/-- Is `t` a chain of consecutive steps starting at `x`? -/
def isChainFrom (x : Nat) : List (Nat × Nat) → Bool
  | [] => true
  | (a, b) :: rest => a == x && isChainFrom b rest

/-- The final vertex of a chain of steps starting at `x`. -/
def chainEnd (x : Nat) : List (Nat × Nat) → Nat
  | [] => x
  | (_, b) :: rest => chainEnd b rest

/-- All perfect matchings ("pairings") of a vertex list, each pair oriented
and ordered by list position; `fuel` bounds the recursion depth. -/
def pairingsF : Nat → List Nat → List (List (Nat × Nat))
  | _, [] => [[]]
  | 0, _ :: _ => []
  | fuel + 1, v :: vs =>
    vs.flatMap (fun u => (pairingsF fuel (vs.erase u)).map (fun M => (v, u) :: M))

/-- Modelled from the spec: all perfect matchings of a vertex list. -/
def pairings (l : List Nat) : List (List (Nat × Nat)) :=
  pairingsF l.length l

/-- The weight of a perfect matching where each pair costs the shortest-path
distance between its vertices. -/
def pairingWeight (g : G) (M : List (Nat × Nat)) : Nat :=
  (M.map (fun p => dist0 g p.1 p.2)).sum

/-- Modelled from the spec: the minimum, over all perfect matchings of the
vertex list, of the shortest-path-distance weight. -/
def minPerfectWeight (g : G) (vs : List Nat) : Option Nat :=
  ((pairings vs).argmin (pairingWeight g)).map (pairingWeight g)

/-- The total edge weight of an edge list. -/
def totalW (es : List Edge) : Nat :=
  (es.map (fun e => e.2.2)).sum

/-- Is the computation a success? -/
def isOk : Except Err α → Bool
  | .ok _ => true
  | .error _ => false

/-- The walk relation: a nonempty vertex list each of whose consecutive pairs
is joined by an edge. -/
def isWalkB (es : List Edge) : List Nat → Bool
  | [] => false
  | [_] => true
  | a :: b :: rest => adjB es a b && isWalkB es (b :: rest)

/-- The endpoint-pair normal form of an edge. -/
def normE (e : Edge) : Nat × Nat := np e.1 e.2.1

/-- All vertices touched by a list of steps. -/
def touched (t : List (Nat × Nat)) : List Nat :=
  t.flatMap (fun s => [s.1, s.2])

/-- There is a walk (vertex sequence along edges) from `u` to `v`. -/
def hasWalk (es : List Edge) (u v : Nat) : Prop :=
  ∃ p, isWalkB es p = true ∧ p.head? = some u ∧ p.getLast? = some v

/-! ### Degrees and the handshake lemma -/

theorem endpointsL_cons (e : Edge) (es : List Edge) :
    endpointsL (e :: es) = e.1 :: e.2.1 :: endpointsL es := by
  simp [endpointsL]

theorem endpointsL_append (es fs : List Edge) :
    endpointsL (es ++ fs) = endpointsL es ++ endpointsL fs := by
  simp [endpointsL]

theorem endpointsL_length (es : List Edge) :
    (endpointsL es).length = 2 * es.length := by
  induction es with
  | nil => simp [endpointsL]
  | cons e es ih => rw [endpointsL_cons]; simp only [List.length_cons, ih]; omega

theorem mem_endpointsL {x : Nat} {es : List Edge} :
    x ∈ endpointsL es ↔ ∃ e ∈ es, e.1 = x ∨ e.2.1 = x := by
  simp only [endpointsL, List.mem_flatMap, List.mem_cons, List.not_mem_nil, or_false]
  constructor
  · rintro ⟨e, he, h | h⟩
    · exact ⟨e, he, Or.inl h.symm⟩
    · exact ⟨e, he, Or.inr h.symm⟩
  · rintro ⟨e, he, h | h⟩
    · exact ⟨e, he, Or.inl h.symm⟩
    · exact ⟨e, he, Or.inr h.symm⟩

theorem count_sum_nodup (ns : List Nat) : ∀ (l : List Nat), ns.Nodup →
    (∀ x ∈ l, x ∈ ns) → (ns.map (fun v => l.count v)).sum = l.length := by
  induction ns with
  | nil =>
    intro l _ hsub
    have : l = [] := List.eq_nil_iff_forall_not_mem.mpr (fun a ha => by simpa using hsub a ha)
    simp [this]
  | cons v ns ih =>
    intro l hnd hsub
    have hvns : v ∉ ns := (List.nodup_cons.mp hnd).1
    have hnd' : ns.Nodup := (List.nodup_cons.mp hnd).2
    set l' := l.filter (fun y => !(y == v)) with hl'
    have hcongr : ns.map (fun x => l.count x) = ns.map (fun x => l'.count x) := by
      apply List.map_congr_left
      intro x hx
      have hxv : x ≠ v := fun h => hvns (h ▸ hx)
      rw [hl', List.count_filter (by simp [hxv])]
    have hsub' : ∀ x ∈ l', x ∈ ns := by
      intro x hx
      have hxl : x ∈ l := List.mem_of_mem_filter hx
      have hxv : x ≠ v := by
        have := List.of_mem_filter hx
        simpa using this
      rcases List.mem_cons.mp (hsub x hxl) with h | h
      · exact absurd h hxv
      · exact h
    have hIH := ih l' hnd' hsub'
    have hsplit : l.length = (l.filter (fun y => y == v)).length + l'.length := by
      rw [hl']
      exact List.length_eq_length_filter_add _
    have hcount : l.count v = (l.filter (fun y => y == v)).length := by
      rw [List.count_eq_countP, List.countP_eq_length_filter]
    simp only [List.map_cons, List.sum_cons, hcongr, hIH]
    omega

theorem odd_count_parity (l : List Nat) :
    (l.filter (fun x => x % 2 != 0)).length % 2 = l.sum % 2 := by
  induction l with
  | nil => simp
  | cons a l ih =>
    rw [List.filter_cons, List.sum_cons]
    by_cases h : a % 2 = 0
    · rw [if_neg (by simp [h])]
      omega
    · rw [if_pos (by simpa using h)]
      rw [List.length_cons]
      omega

theorem degL_sum (g : G) (h : WF g) :
    (g.nodes.map (fun v => degL g.edges v)).sum = 2 * g.edges.length := by
  have hsub : ∀ x ∈ endpointsL g.edges, x ∈ g.nodes := by
    intro x hx
    rcases mem_endpointsL.mp hx with ⟨e, he, h1 | h2⟩
    · exact h1 ▸ (h.2.1 e he).1
    · exact h2 ▸ (h.2.1 e he).2.1
  have hc := count_sum_nodup g.nodes (endpointsL g.edges) h.1 hsub
  simp only [degL]
  rw [hc, endpointsL_length]

theorem find_odd_length (g : G) :
    (find_odd_degree_vertices g).length =
      ((g.nodes.map (fun v => degL g.edges v)).filter (fun x => x % 2 != 0)).length := by
  rw [find_odd_degree_vertices, List.filter_map, List.length_map]
  rfl

/-- C7.  The odd-degree vertex list always has even cardinality (handshake
lemma); it contains exactly the listed vertices of odd degree, and it is empty
when every degree is even. -/
theorem claim_C7 (g : G) (h : WF g) :
    (find_odd_degree_vertices g).length % 2 = 0 ∧
    (∀ v, v ∈ find_odd_degree_vertices g ↔ v ∈ g.nodes ∧ degL g.edges v % 2 = 1) ∧
    ((∀ v ∈ g.nodes, degL g.edges v % 2 = 0) → find_odd_degree_vertices g = []) := by
  refine ⟨?_, ?_, ?_⟩
  · rw [find_odd_length, odd_count_parity, degL_sum g h]
    omega
  · intro v
    rw [find_odd_degree_vertices, List.mem_filter]
    constructor
    · rintro ⟨h1, h2⟩
      refine ⟨h1, ?_⟩
      have : degL g.edges v % 2 ≠ 0 := by simpa using h2
      omega
    · rintro ⟨h1, h2⟩
      exact ⟨h1, by simp [h2]⟩
  · intro hall
    rw [find_odd_degree_vertices, List.filter_eq_nil_iff]
    intro v hv
    simp [hall v hv]

/-- Witness for C7 at the driver's example graph. -/
theorem claim_C7_witness :
    WF ⟨[0, 1, 2, 3, 4, 5],
      [(0, 1, 10), (0, 2, 15), (1, 3, 20), (2, 3, 25), (2, 4, 30), (3, 4, 10), (4, 5, 12), (5, 0, 5)]⟩ ∧
    (find_odd_degree_vertices ⟨[0, 1, 2, 3, 4, 5],
      [(0, 1, 10), (0, 2, 15), (1, 3, 20), (2, 3, 25), (2, 4, 30), (3, 4, 10), (4, 5, 12), (5, 0, 5)]⟩).length % 2 = 0 :=
  ⟨by decide, (claim_C7 _ (by decide)).1⟩

/-! ### Structure of the eulerization step -/

theorem totalW_append (es fs : List Edge) : totalW (es ++ fs) = totalW es + totalW fs := by
  simp [totalW]

/-- Every successful run of the duplication loop appends the duplicated path
edges to the edge list it was given and returns the accumulated weight of
exactly those edges. -/
theorem ammGo_ok_shape (g : G) :
    ∀ (M : List (Nat × Nat)) (es : List Edge) (w : Nat) (r : List Edge × Nat),
      ammGo g M es w = .ok r →
      ∃ extra : List Edge, r.1 = es ++ extra ∧ r.2 = w + totalW extra ∧
        ∀ e ∈ extra, ∃ u v p, (u, v) ∈ M ∧ shortest_path g u v = some p ∧
          e ∈ addPathEdges g p := by
  intro M
  induction M with
  | nil =>
    intro es w r h
    rw [ammGo] at h
    cases h
    exact ⟨[], by simp, by simp [totalW], by simp⟩
  | cons uv rest ih =>
    intro es w r h
    obtain ⟨u, v⟩ := uv
    rw [ammGo] at h
    cases hsp : shortest_path g u v with
    | none => rw [hsp] at h; cases h
    | some p =>
      rw [hsp] at h
      obtain ⟨extra', h1, h2, h3⟩ := ih _ _ _ h
      refine ⟨addPathEdges g p ++ extra', ?_, ?_, ?_⟩
      · rw [h1, List.append_assoc]
      · rw [h2, totalW_append]
        simp only [totalW]
        omega
      · intro e he
        rcases List.mem_append.mp he with he' | he'
        · exact ⟨u, v, p, List.mem_cons_self _ _, hsp, he'⟩
        · obtain ⟨u', v', p', hm, hsp', hmem⟩ := h3 e he'
          exact ⟨u', v', p', List.mem_cons_of_mem _ hm, hsp', hmem⟩

/-- Case analysis of `add_minimum_weight_matching`: either the odd list is
empty and the graph is returned unchanged with weight `0`, or the result's
edges extend the original edges by the duplicated path edges whose total
weight is the returned weight. -/
theorem amm_ok_shape (g : G) (eg : G) (w : Nat)
    (h : add_minimum_weight_matching g = .ok (eg, w)) :
    (find_odd_degree_vertices g = [] ∧ eg = g ∧ w = 0) ∨
    ∃ extra : List Edge, eg.nodes = nodesFromEdges (g.edges ++ extra) ∧
      eg.edges = g.edges ++ extra ∧ w = totalW extra ∧
      ∀ e ∈ extra, ∃ u v p, (u, v) ∈ min_weight_matching (buildK g (find_odd_degree_vertices g)) ∧
        shortest_path g u v = some p ∧ e ∈ addPathEdges g p := by
  rw [add_minimum_weight_matching] at h
  by_cases he : (find_odd_degree_vertices g).isEmpty
  · left
    rw [if_pos he] at h
    cases h
    exact ⟨List.isEmpty_iff.mp he, rfl, rfl⟩
  · right
    rw [if_neg he] at h
    cases hgo : ammGo g (min_weight_matching (buildK g (find_odd_degree_vertices g))) g.edges 0 with
    | error e => rw [hgo] at h; cases h
    | ok r =>
      rw [hgo] at h
      obtain ⟨extra, h1, h2, h3⟩ := ammGo_ok_shape g _ _ _ _ hgo
      obtain ⟨es', w'⟩ := r
      simp only at h1 h2
      cases h
      exact ⟨extra, by rw [h1], h1, by rw [h2]; omega, h3⟩

/-- C9.  Eulerization has no effect on the input graph: the embedding of
`add_minimum_weight_matching` is a pure function of `g` (the source only reads
the input and assembles a fresh structure), the empty-matching branch returns
the original graph itself with added weight `0`, and any successful result's
edge list extends the unchanged original edge list. -/
theorem claim_C9 (g : G) :
    (find_odd_degree_vertices g = [] → add_minimum_weight_matching g = .ok (g, 0)) ∧
    (∀ eg w, add_minimum_weight_matching g = .ok (eg, w) →
      ∃ extra, eg.edges = g.edges ++ extra) := by
  constructor
  · intro h
    rw [add_minimum_weight_matching, if_pos (List.isEmpty_iff.mpr h)]
  · intro eg w h
    rcases amm_ok_shape g eg w h with ⟨_, heg, _⟩ | ⟨extra, _, h2, _⟩
    · exact ⟨[], by rw [heg, List.append_nil]⟩
    · exact ⟨extra, h2⟩

/-- Witness for C9 at the already-Eulerian 4-cycle. -/
theorem claim_C9_witness :
    find_odd_degree_vertices ⟨[0, 1, 2, 3], [(0, 1, 1), (1, 2, 1), (2, 3, 1), (3, 0, 1)]⟩ = [] ∧
    add_minimum_weight_matching ⟨[0, 1, 2, 3], [(0, 1, 1), (1, 2, 1), (2, 3, 1), (3, 0, 1)]⟩ =
      .ok (⟨[0, 1, 2, 3], [(0, 1, 1), (1, 2, 1), (2, 3, 1), (3, 0, 1)]⟩, 0) :=
  ⟨by decide, (claim_C9 _).1 (by decide)⟩

/-- C10.  The added weight returned by eulerization is exactly the total edge
weight of the produced multigraph minus the total edge weight of the input, in
both branches. -/
theorem claim_C10 (g : G) (eg : G) (w : Nat)
    (h : add_minimum_weight_matching g = .ok (eg, w)) :
    totalW eg.edges = totalW g.edges + w := by
  rcases amm_ok_shape g eg w h with ⟨_, heg, hw⟩ | ⟨extra, _, h2, hw, _⟩
  · rw [heg, hw]
    omega
  · rw [h2, totalW_append, hw]


/-- Witness for C10 at the path graph `0 - 1 - 2`. -/
theorem claim_C10_witness :
    add_minimum_weight_matching ⟨[0, 1, 2], [(0, 1, 1), (1, 2, 1)]⟩ =
      .ok (⟨[0, 1, 2], [(0, 1, 1), (1, 2, 1), (0, 1, 1), (1, 2, 1)]⟩, 2) ∧
    totalW [(0, 1, 1), (1, 2, 1), (0, 1, 1), (1, 2, 1)] = totalW [(0, 1, 1), (1, 2, 1)] + 2 :=
  ⟨by decide,
    claim_C10 ⟨[0, 1, 2], [(0, 1, 1), (1, 2, 1)]⟩
      ⟨[0, 1, 2], [(0, 1, 1), (1, 2, 1), (0, 1, 1), (1, 2, 1)]⟩ 2 (by decide)⟩

/-! ### Adjacency, walks and simple paths -/

theorem adjB_iff {es : List Edge} {a b : Nat} :
    adjB es a b = true ↔ ∃ e ∈ es, (e.1 = a ∧ e.2.1 = b) ∨ (e.1 = b ∧ e.2.1 = a) := by
  simp [adjB]

theorem adjB_symm (es : List Edge) (a b : Nat) : adjB es a b = adjB es b a := by
  rw [Bool.eq_iff_iff, adjB_iff, adjB_iff]
  constructor
  · rintro ⟨e, he, h⟩
    exact ⟨e, he, h.symm⟩
  · rintro ⟨e, he, h⟩
    exact ⟨e, he, h.symm⟩

theorem adjB_append_left {es fs : List Edge} {a b : Nat} (h : adjB es a b = true) :
    adjB (es ++ fs) a b = true := by
  rw [adjB_iff] at h ⊢
  obtain ⟨e, he, hh⟩ := h
  exact ⟨e, List.mem_append_left _ he, hh⟩

theorem mem_neighborsOf_iff {es : List Edge} {u w : Nat} :
    w ∈ neighborsOf es u ↔ adjB es u w = true := by
  rw [adjB_iff]
  simp only [neighborsOf, List.mem_filterMap]
  constructor
  · rintro ⟨e, he, hf⟩
    refine ⟨e, he, ?_⟩
    split at hf
    · rename_i h1
      cases hf
      exact Or.inl ⟨by simpa using h1, rfl⟩
    · split at hf
      · rename_i h1 h2
        cases hf
        exact Or.inr ⟨rfl, by simpa using h2⟩
      · cases hf
  · rintro ⟨e, he, h⟩
    refine ⟨e, he, ?_⟩
    rcases h with ⟨h1, h2⟩ | ⟨h1, h2⟩
    · rw [if_pos (by simpa using h1), h2]
    · by_cases hq : e.1 = u
      · rw [if_pos (by simpa using hq)]
        have hw : e.2.1 = w := by omega
        rw [hw]
      · rw [if_neg (by simpa using hq), if_pos (by simpa using h2), h1]

theorem isWalkB_iff_chain {es : List Edge} : ∀ (p : List Nat),
    isWalkB es p = true ↔ (p ≠ [] ∧ p.Chain' (fun a b => adjB es a b = true))
  | [] => by simp [isWalkB]
  | [x] => by simp [isWalkB]
  | x :: y :: rest => by
    have h1 : isWalkB es (x :: y :: rest) = (adjB es x y && isWalkB es (y :: rest)) := rfl
    rw [h1, Bool.and_eq_true, isWalkB_iff_chain (y :: rest), List.chain'_cons]
    constructor
    · rintro ⟨ha, _, hc⟩
      exact ⟨by simp, ha, hc⟩
    · rintro ⟨_, ha, hc⟩
      exact ⟨ha, by simp, hc⟩

theorem hasWalk_refl (es : List Edge) (u : Nat) : hasWalk es u u :=
  ⟨[u], rfl, rfl, rfl⟩

theorem hasWalk_of_adjB {es : List Edge} {a b : Nat} (h : adjB es a b = true) :
    hasWalk es a b := by
  refine ⟨[a, b], ?_, rfl, rfl⟩
  have hh : isWalkB es [a, b] = (adjB es a b && isWalkB es [b]) := rfl
  rw [hh, h]
  rfl

theorem hasWalk_symm {es : List Edge} {u v : Nat} (h : hasWalk es u v) : hasWalk es v u := by
  obtain ⟨p, hw, hh, hl⟩ := h
  obtain ⟨hne, hc⟩ := (isWalkB_iff_chain p).mp hw
  refine ⟨p.reverse, ?_, ?_, ?_⟩
  · rw [isWalkB_iff_chain]
    refine ⟨by simpa using hne, ?_⟩
    rw [List.chain'_reverse]
    refine hc.imp ?_
    intro a b hab
    show adjB es b a = true
    rw [adjB_symm es b a]
    exact hab
  · rw [List.head?_reverse]
    exact hl
  · rw [List.getLast?_reverse]
    exact hh

theorem hasWalk_trans {es : List Edge} {u v w : Nat}
    (h1 : hasWalk es u v) (h2 : hasWalk es v w) : hasWalk es u w := by
  obtain ⟨p, hw1, hh1, hl1⟩ := h1
  obtain ⟨q, hw2, hh2, hl2⟩ := h2
  obtain ⟨hne1, hc1⟩ := (isWalkB_iff_chain p).mp hw1
  obtain ⟨_, hc2⟩ := (isWalkB_iff_chain q).mp hw2
  cases q with
  | nil => simp at hh2
  | cons qh q' =>
    have hqv : qh = v := by simpa using hh2
    subst hqv
    cases q' with
    | nil =>
      have hvw : qh = w := by simpa using hl2
      subst hvw
      exact ⟨p, hw1, hh1, hl1⟩
    | cons b q'' =>
      refine ⟨p ++ b :: q'', ?_, ?_, ?_⟩
      · rw [isWalkB_iff_chain]
        refine ⟨by simp, ?_⟩
        rw [List.chain'_append]
        refine ⟨hc1, (List.chain'_cons.mp hc2).2, ?_⟩
        intro x hx y hy
        rw [hl1] at hx
        simp only [Option.mem_def, Option.some.injEq] at hx
        subst hx
        simp only [List.head?_cons, Option.mem_def, Option.some.injEq] at hy
        subst hy
        exact (List.chain'_cons.mp hc2).1
      · cases p with
        | nil => exact absurd rfl hne1
        | cons a p' => simpa using hh1
      · rw [List.getLast?_append]
        rw [List.getLast?_cons_cons] at hl2
        rw [hl2]
        rfl

theorem nodup_subset_length {l ns : List Nat} (h : l.Nodup) (hs : ∀ x ∈ l, x ∈ ns) :
    l.length ≤ ns.length := by
  calc l.length = l.toFinset.card := (List.toFinset_card_of_nodup h).symm
    _ ≤ ns.toFinset.card := Finset.card_le_card (fun x hx => by
        rw [List.mem_toFinset] at hx ⊢
        exact hs x hx)
    _ ≤ ns.length := List.toFinset_card_le ns

theorem pathsFrom_unfold (es : List Edge) (fuel u v : Nat) (avoid : List Nat) :
    pathsFrom es fuel u v avoid =
      if u = v then [[u]]
      else match fuel with
        | 0 => []
        | fuel' + 1 =>
          ((neighborsOf es u).filter (fun w => !(u :: avoid).contains w)).flatMap
            (fun w => (pathsFrom es fuel' w v (u :: avoid)).map (fun p => u :: p)) := by
  rw [pathsFrom.eq_def]

theorem pathsFrom_sound (es : List Edge) :
    ∀ (fuel : Nat) (u v : Nat) (avoid : List Nat) (p : List Nat),
      p ∈ pathsFrom es fuel u v avoid → u ∉ avoid →
      isWalkB es p = true ∧ p.head? = some u ∧ p.getLast? = some v ∧ p.Nodup ∧
        ∀ x ∈ p, x ∉ avoid := by
  intro fuel
  induction fuel with
  | zero =>
    intro u v avoid p hp hu
    rw [pathsFrom] at hp
    by_cases huv : u = v
    · rw [if_pos huv] at hp
      simp only [List.mem_singleton] at hp
      subst hp
      subst huv
      exact ⟨rfl, rfl, rfl, List.nodup_singleton _, by simpa using hu⟩
    · rw [if_neg huv] at hp
      cases hp
  | succ fuel ih =>
    intro u v avoid p hp hu
    rw [pathsFrom] at hp
    by_cases huv : u = v
    · rw [if_pos huv] at hp
      simp only [List.mem_singleton] at hp
      subst hp
      subst huv
      exact ⟨rfl, rfl, rfl, List.nodup_singleton _, by simpa using hu⟩
    · rw [if_neg huv] at hp
      obtain ⟨w, hwf, hpmap⟩ := List.mem_flatMap.mp hp
      obtain ⟨p', hp', hpe⟩ := List.mem_map.mp hpmap
      obtain ⟨hwnb, hwav⟩ := List.mem_filter.mp hwf
      subst hpe
      have hwnotin : w ∉ u :: avoid := by simpa using hwav
      obtain ⟨hwalk, hhead, hlast, hnd, hav⟩ := ih w v (u :: avoid) p' hp' hwnotin
      cases p' with
      | nil => simp at hhead
      | cons ph rest =>
        have hphw : ph = w := by simpa using hhead
        subst hphw
        have hadj : adjB es u ph = true := mem_neighborsOf_iff.mp hwnb
        have hunotp : u ∉ ph :: rest := fun hmem =>
          (hav u hmem) (List.mem_cons_self u avoid)
        refine ⟨?_, rfl, ?_, ?_, ?_⟩
        · have hh : isWalkB es (u :: ph :: rest) = (adjB es u ph && isWalkB es (ph :: rest)) := rfl
          rw [hh, hadj, hwalk]
          rfl
        · rw [List.getLast?_cons_cons]
          exact hlast
        · exact List.nodup_cons.mpr ⟨hunotp, hnd⟩
        · intro x hx
          rcases List.mem_cons.mp hx with hxu | hxp
          · exact hxu ▸ hu
          · exact fun hxa => hav x hxp (List.mem_cons_of_mem _ hxa)

theorem pathsFrom_complete (es : List Edge) :
    ∀ (p : List Nat) (fuel u v : Nat) (avoid : List Nat),
      isWalkB es p = true → p.head? = some u → p.getLast? = some v → p.Nodup →
      (∀ x ∈ p, x ∉ avoid) → p.length ≤ fuel + 1 →
      p ∈ pathsFrom es fuel u v avoid := by
  intro p
  induction p with
  | nil =>
    intro fuel u v avoid hw
    simp [isWalkB] at hw
  | cons x p ih =>
    intro fuel u v avoid hw hh hl hnd hav hlen
    have hxu : x = u := by simpa using hh
    subst hxu
    cases p with
    | nil =>
      have hv : x = v := by simpa using hl
      rw [pathsFrom_unfold, if_pos hv]
      simp
    | cons y rest =>
      have hsplit : adjB es x y = true ∧ isWalkB es (y :: rest) = true := by
        have hh2 : isWalkB es (x :: y :: rest) = (adjB es x y && isWalkB es (y :: rest)) := rfl
        rw [hh2, Bool.and_eq_true] at hw
        exact hw
      have hlast' : (y :: rest).getLast? = some v := by
        rw [← List.getLast?_cons_cons (a := x)]
        exact hl
      have hvmem : v ∈ y :: rest := List.mem_of_mem_getLast? hlast'
      have hxv : x ≠ v := fun h => (List.nodup_cons.mp hnd).1 (h ▸ hvmem)
      rw [pathsFrom_unfold, if_neg hxv]
      cases fuel with
      | zero =>
        exfalso
        simp only [List.length_cons] at hlen
        omega
      | succ fuel' =>
        apply List.mem_flatMap.mpr
        refine ⟨y, ?_, ?_⟩
        · apply List.mem_filter.mpr
          refine ⟨mem_neighborsOf_iff.mpr hsplit.1, ?_⟩
          have hyx : y ≠ x := fun h =>
            (List.nodup_cons.mp hnd).1 (h ▸ List.mem_cons_self _ _)
          have hyav : y ∉ avoid :=
            hav y (List.mem_cons_of_mem _ (List.mem_cons_self _ _))
          simp [hyx, hyav]
        · apply List.mem_map.mpr
          refine ⟨y :: rest, ?_, rfl⟩
          apply ih fuel' y v (x :: avoid) hsplit.2 rfl hlast' (List.nodup_cons.mp hnd).2
          · intro z hz hzm
            rcases List.mem_cons.mp hzm with hzx | hza
            · exact (List.nodup_cons.mp hnd).1 (hzx ▸ hz)
            · exact hav z (List.mem_cons_of_mem _ hz) hza
          · simp only [List.length_cons] at hlen ⊢
            omega

theorem walk_vertices_endpoints (es : List Edge) :
    ∀ (p : List Nat), isWalkB es p = true → 2 ≤ p.length →
      ∀ x ∈ p, x ∈ endpointsL es := by
  intro p
  induction p with
  | nil => intro _ h2; simp at h2
  | cons a p ih =>
    intro hw h2 x hx
    cases p with
    | nil => simp at h2
    | cons b rest =>
      have hsplit : adjB es a b = true ∧ isWalkB es (b :: rest) = true := by
        have hh : isWalkB es (a :: b :: rest) = (adjB es a b && isWalkB es (b :: rest)) := rfl
        rw [hh, Bool.and_eq_true] at hw
        exact hw
      obtain ⟨e, he, hor⟩ := adjB_iff.mp hsplit.1
      rcases List.mem_cons.mp hx with hxa | hxp
      · subst hxa
        apply mem_endpointsL.mpr
        rcases hor with ⟨h1, _⟩ | ⟨_, h2'⟩
        · exact ⟨e, he, Or.inl h1⟩
        · exact ⟨e, he, Or.inr h2'⟩
      · cases rest with
        | nil =>
          have hxb : x = b := by simpa using hxp
          subst hxb
          apply mem_endpointsL.mpr
          rcases hor with ⟨_, h2'⟩ | ⟨h1, _⟩
          · exact ⟨e, he, Or.inr h2'⟩
          · exact ⟨e, he, Or.inl h1⟩
        | cons c rest' =>
          exact ih hsplit.2 (by simp) x hxp

theorem walk_nodup_exists (es : List Edge) :
    ∀ (p : List Nat), isWalkB es p = true →
      ∃ q, isWalkB es q = true ∧ q.head? = p.head? ∧ q.getLast? = p.getLast? ∧ q.Nodup := by
  intro p
  induction p with
  | nil => intro hw; simp [isWalkB] at hw
  | cons x p ih =>
    intro hw
    cases p with
    | nil => exact ⟨[x], rfl, rfl, rfl, List.nodup_singleton _⟩
    | cons y rest =>
      have hsplit : adjB es x y = true ∧ isWalkB es (y :: rest) = true := by
        have hh : isWalkB es (x :: y :: rest) = (adjB es x y && isWalkB es (y :: rest)) := rfl
        rw [hh, Bool.and_eq_true] at hw
        exact hw
      obtain ⟨q, hwq, hhq, hlq, hndq⟩ := ih hsplit.2
      by_cases hxq : x ∈ q
      · obtain ⟨s, t, hst⟩ := List.append_of_mem hxq
        refine ⟨x :: t, ?_, rfl, ?_, ?_⟩
        · rw [isWalkB_iff_chain]
          refine ⟨by simp, ?_⟩
          have hcq := ((isWalkB_iff_chain q).mp hwq).2
          exact hcq.suffix (hst ▸ List.suffix_append s (x :: t))
        · rw [List.getLast?_cons_cons, ← hlq, hst, List.getLast?_append,
            Option.or_of_isSome (by simp [List.getLast?_isSome])]
        · have : (x :: t).Sublist (s ++ x :: t) := List.sublist_append_right s (x :: t)
          exact List.Nodup.sublist this (hst ▸ hndq)
      · refine ⟨x :: q, ?_, rfl, ?_, ?_⟩
        · cases q with
          | nil => simp at hhq
          | cons q0 qs =>
            have hq0 : q0 = y := by simpa using hhq
            subst hq0
            have hh : isWalkB es (x :: q0 :: qs) = (adjB es x q0 && isWalkB es (q0 :: qs)) := rfl
            rw [hh, hsplit.1, hwq]
            rfl
        · cases q with
          | nil => simp at hhq
          | cons q0 qs =>
            rw [List.getLast?_cons_cons, List.getLast?_cons_cons]
            exact hlq
        · exact List.nodup_cons.mpr ⟨hxq, hndq⟩

theorem hasWalk_of_hasPathB {g : G} {u v : Nat} (h : hasPathB g u v = true) :
    hasWalk g.edges u v := by
  rw [hasPathB, Bool.not_eq_true', List.isEmpty_eq_false_iff_exists_mem] at h
  obtain ⟨p, hp⟩ := h
  obtain ⟨hw, hh, hl, _, _⟩ :=
    pathsFrom_sound g.edges g.nodes.length u v [] p hp (by simp)
  exact ⟨p, hw, hh, hl⟩

theorem hasPathB_of_hasWalk {g : G}
    (hep : ∀ e ∈ g.edges, e.1 ∈ g.nodes ∧ e.2.1 ∈ g.nodes)
    {u v : Nat} (h : hasWalk g.edges u v) : hasPathB g u v = true := by
  obtain ⟨p, hw, hh, hl⟩ := h
  obtain ⟨q, hwq, hhq, hlq, hndq⟩ := walk_nodup_exists g.edges p hw
  rw [hh] at hhq
  rw [hl] at hlq
  have hqlen : q.length ≤ g.nodes.length + 1 := by
    cases q with
    | nil => simp
    | cons a q' =>
      cases q' with
      | nil => simp
      | cons b q'' =>
        have hsub : ∀ x ∈ a :: b :: q'', x ∈ g.nodes := by
          intro x hx
          rcases mem_endpointsL.mp
              (walk_vertices_endpoints g.edges _ hwq (by simp) x hx) with ⟨e, he, h1 | h2⟩
          · exact h1 ▸ (hep e he).1
          · exact h2 ▸ (hep e he).2
        have := nodup_subset_length hndq hsub
        omega
  have hmem : q ∈ simplePaths g u v :=
    pathsFrom_complete g.edges q g.nodes.length u v [] hwq hhq hlq hndq (by simp)
      (by omega)
  simp only [hasPathB, Bool.not_eq_true', List.isEmpty_eq_false_iff_exists_mem]
  exact ⟨q, hmem⟩

theorem connectedB_hasWalk {g : G} (hconn : connectedB g = true)
    {u v : Nat} (hu : u ∈ g.nodes) (hv : v ∈ g.nodes) : hasWalk g.edges u v := by
  rw [connectedB] at hconn
  cases hn : g.nodes with
  | nil => rw [hn] at hu; cases hu
  | cons n ns =>
    rw [hn] at hconn
    have hall := List.all_eq_true.mp hconn
    have h1 : hasWalk g.edges n u := hasWalk_of_hasPathB (hall u (hn ▸ hu))
    have h2 : hasWalk g.edges n v := hasWalk_of_hasPathB (hall v (hn ▸ hv))
    exact hasWalk_trans (hasWalk_symm h1) h2

/-! ### Shortest paths and totality of eulerization -/

theorem hasPathB_refl (g : G) (u : Nat) : hasPathB g u u = true := by
  rw [hasPathB, simplePaths, pathsFrom_unfold, if_pos rfl]
  rfl

theorem hasPathB_no_edges {g : G} (h : g.edges = []) {u v : Nat} (hne : u ≠ v) :
    hasPathB g u v = false := by
  rw [hasPathB, simplePaths, pathsFrom_unfold, if_neg hne]
  cases g.nodes.length with
  | zero => rfl
  | succ k => simp [h, neighborsOf]

theorem shortest_path_of_hasPathB {g : G} {u v : Nat} (h : hasPathB g u v = true) :
    ∃ p, shortest_path g u v = some p := by
  rw [hasPathB, Bool.not_eq_true', List.isEmpty_eq_false_iff_exists_mem] at h
  obtain ⟨p, hp⟩ := h
  cases harg : shortest_path g u v with
  | none =>
    rw [shortest_path, List.argmin_eq_none] at harg
    rw [harg] at hp
    cases hp
  | some q => exact ⟨q, rfl⟩

theorem shortest_path_mem {g : G} {u v : Nat} {p : List Nat}
    (h : shortest_path g u v = some p) : p ∈ simplePaths g u v :=
  List.argmin_mem h

theorem shortest_path_le {g : G} {u v : Nat} {p : List Nat}
    (h : shortest_path g u v = some p) {q : List Nat} (hq : q ∈ simplePaths g u v) :
    pathW g p ≤ pathW g q :=
  List.le_of_mem_argmin hq h

theorem shortest_path_sound {g : G} {u v : Nat} {p : List Nat}
    (h : shortest_path g u v = some p) :
    isWalkB g.edges p = true ∧ p.head? = some u ∧ p.getLast? = some v ∧ p.Nodup := by
  obtain ⟨a, b, c, d, _⟩ :=
    pathsFrom_sound g.edges g.nodes.length u v [] p (shortest_path_mem h) (by simp)
  exact ⟨a, b, c, d⟩

theorem dist0_eq_pathW {g : G} {u v : Nat} {p : List Nat}
    (h : shortest_path g u v = some p) : dist0 g u v = pathW g p := by
  rw [dist0, h]
  rfl

theorem odd_nil_of_no_edges (g : G) (h : g.edges = []) : find_odd_degree_vertices g = [] := by
  rw [find_odd_degree_vertices, List.filter_eq_nil_iff]
  intro v _
  simp [degL, endpointsL, h]

theorem amm_empty (g : G) (h : find_odd_degree_vertices g = []) :
    add_minimum_weight_matching g = .ok (g, 0) := by
  rw [add_minimum_weight_matching, if_pos (List.isEmpty_iff.mpr h)]

theorem mwm_mem {es : List Edge} {pr : Nat × Nat} (h : pr ∈ min_weight_matching es) :
    ∃ e ∈ es, pr = (e.1, e.2.1) := by
  rw [min_weight_matching] at h
  cases harg : ((allMatchings es).filter (fun M => M.length == maxMatchCard es)).argmin
      (fun M => (M.map (fun e => e.2.2)).sum) with
  | none => rw [harg] at h; cases h
  | some M =>
    rw [harg] at h
    obtain ⟨e, he, hpr⟩ := List.mem_map.mp h
    have hM : M ∈ allMatchings es := List.mem_of_mem_filter (List.argmin_mem harg)
    have hMsub : M.Sublist es := List.mem_sublists.mp (List.mem_of_mem_filter hM)
    exact ⟨e, hMsub.subset he, hpr.symm⟩

theorem buildK_mem {g : G} {odd : List Nat} {e : Edge} (h : e ∈ buildK g odd) :
    hasPathB g e.1 e.2.1 = true ∧ e.2.2 = dist0 g e.1 e.2.1 ∧ (e.1, e.2.1) ∈ allPairs odd := by
  rw [buildK] at h
  obtain ⟨p, hp, hf⟩ := List.mem_filterMap.mp h
  split at hf
  · rename_i hcond
    cases hf
    exact ⟨hcond, rfl, hp⟩
  · cases hf

theorem ammGo_total (g : G) :
    ∀ (M : List (Nat × Nat)) (es : List Edge) (w : Nat),
      (∀ uv ∈ M, hasPathB g uv.1 uv.2 = true) → ∃ r, ammGo g M es w = .ok r := by
  intro M
  induction M with
  | nil => intro es w _; exact ⟨(es, w), rfl⟩
  | cons uv rest ih =>
    intro es w hall
    obtain ⟨u, v⟩ := uv
    obtain ⟨p, hp⟩ := shortest_path_of_hasPathB (hall (u, v) (List.mem_cons_self _ _))
    rw [ammGo, hp]
    exact ih _ _ (fun x hx => hall x (List.mem_cons_of_mem _ hx))

theorem amm_total (g : G) : ∃ r, add_minimum_weight_matching g = .ok r := by
  rw [add_minimum_weight_matching]
  by_cases he : (find_odd_degree_vertices g).isEmpty
  · rw [if_pos he]
    exact ⟨(g, 0), rfl⟩
  · rw [if_neg he]
    have hall : ∀ uv ∈ min_weight_matching (buildK g (find_odd_degree_vertices g)),
        hasPathB g uv.1 uv.2 = true := by
      intro uv huv
      obtain ⟨e, he', hpr⟩ := mwm_mem huv
      obtain ⟨hpth, _, _⟩ := buildK_mem he'
      rw [hpr]
      exact hpth
    obtain ⟨r, hr⟩ := ammGo_total g
        (min_weight_matching (buildK g (find_odd_degree_vertices g))) g.edges 0 hall
    rw [hr]
    exact ⟨_, rfl⟩

/-! ### Duplicated edges are parallel copies of graph edges -/

theorem dupSteps_adjacent {es : List Edge} :
    ∀ {p : List Nat}, isWalkB es p = true →
      ∀ st ∈ dupSteps p, adjB es st.1 st.2 = true
  | [], _, _, hst => by cases hst
  | [x], _, _, hst => by cases hst
  | x :: y :: rest, hw, st, hst => by
    have hsplit : adjB es x y = true ∧ isWalkB es (y :: rest) = true := by
      have hh : isWalkB es (x :: y :: rest) = (adjB es x y && isWalkB es (y :: rest)) := rfl
      rw [hh, Bool.and_eq_true] at hw
      exact hw
    rcases List.mem_cons.mp hst with hst1 | hst2
    · subst hst1
      exact hsplit.1
    · exact dupSteps_adjacent hsplit.2 st hst2

theorem dupSteps_ne :
    ∀ {p : List Nat}, p.Nodup → ∀ st ∈ dupSteps p, st.1 ≠ st.2
  | [], _, _, hst => by cases hst
  | [x], _, _, hst => by cases hst
  | x :: y :: rest, hnd, st, hst => by
    rcases List.mem_cons.mp hst with hst1 | hst2
    · subst hst1
      intro hxy
      have hxy' : x = y := hxy
      exact (List.nodup_cons.mp hnd).1 (hxy' ▸ List.mem_cons_self _ _)
    · exact dupSteps_ne (List.nodup_cons.mp hnd).2 st hst2

/-- Every duplicated edge added by a successful eulerization joins two distinct
vertices adjacent in the original graph and carries the looked-up original
weight. -/
theorem amm_extra_edges {g : G} {eg : G} {w : Nat}
    (h : add_minimum_weight_matching g = .ok (eg, w)) :
    ∃ extra : List Edge, eg.edges = g.edges ++ extra ∧
      ∀ e ∈ extra, adjB g.edges e.1 e.2.1 = true ∧ e.1 ≠ e.2.1 ∧
        e.2.2 = edgeWeight g e.1 e.2.1 := by
  rcases amm_ok_shape g eg w h with ⟨_, heg, _⟩ | ⟨extra, _, h2, _, h4⟩
  · exact ⟨[], by rw [heg, List.append_nil], by simp⟩
  · refine ⟨extra, h2, ?_⟩
    intro e he
    obtain ⟨u, v, p, _, hsp, hmem⟩ := h4 e he
    obtain ⟨hwp, _, _, hnd⟩ := shortest_path_sound hsp
    obtain ⟨st, hst, hste⟩ := List.mem_map.mp hmem
    have hadj := dupSteps_adjacent hwp st hst
    have hne := dupSteps_ne hnd st hst
    rw [← hste]
    exact ⟨hadj, hne, rfl⟩

theorem hasWalk_append_elim {es extra : List Edge}
    (hx : ∀ e ∈ extra, adjB es e.1 e.2.1 = true) {u v : Nat}
    (h : hasWalk (es ++ extra) u v) : hasWalk es u v := by
  obtain ⟨p, hw, hh, hl⟩ := h
  obtain ⟨hne, hc⟩ := (isWalkB_iff_chain p).mp hw
  refine ⟨p, ?_, hh, hl⟩
  rw [isWalkB_iff_chain]
  refine ⟨hne, hc.imp ?_⟩
  intro a b hab
  rw [adjB_iff] at hab
  obtain ⟨e, he, hor⟩ := hab
  rcases List.mem_append.mp he with he' | he'
  · rw [adjB_iff]
    exact ⟨e, he', hor⟩
  · have := hx e he'
    rcases hor with ⟨h1, h2⟩ | ⟨h1, h2⟩
    · rw [← h1, ← h2]
      exact this
    · rw [← h1, ← h2, adjB_symm]
      exact this

theorem mem_dedupFirst : ∀ (l : List Nat) (x : Nat), x ∈ dedupFirst l ↔ x ∈ l := by
  intro l
  induction l with
  | nil => intro x; rfl
  | cons a l ih =>
    intro x
    rw [dedupFirst]
    constructor
    · intro hx
      rcases List.mem_cons.mp hx with hxa | hxf
      · exact hxa ▸ List.mem_cons_self _ _
      · exact List.mem_cons_of_mem _ ((ih x).mp (List.mem_of_mem_filter hxf))
    · intro hx
      rcases List.mem_cons.mp hx with hxa | hxl
      · exact hxa ▸ List.mem_cons_self _ _
      · by_cases hxa : x = a
        · exact hxa ▸ List.mem_cons_self _ _
        · exact List.mem_cons_of_mem _
            (List.mem_filter.mpr ⟨(ih x).mpr hxl, by simpa using hxa⟩)

theorem nodup_dedupFirst : ∀ (l : List Nat), (dedupFirst l).Nodup := by
  intro l
  induction l with
  | nil => exact List.nodup_nil
  | cons a l ih =>
    rw [dedupFirst]
    refine List.nodup_cons.mpr ⟨?_, List.Nodup.filter _ ih⟩
    intro ha
    have := List.of_mem_filter ha
    simp at this

theorem mem_nodesFromEdges {es : List Edge} {x : Nat} :
    x ∈ nodesFromEdges es ↔ x ∈ endpointsL es := by
  rw [nodesFromEdges, mem_dedupFirst]

/-! ### Unfolding the circuit extraction and the solver -/

theorem solve_err (g : G) (s? : Option Nat) (eg : G) (added : Nat) (err : Err)
    (h1 : add_minimum_weight_matching g = .ok (eg, added))
    (h2 : find_eulerian_circuit eg s? = .error err) :
    solve_chinese_postman g s? = .error err := by
  rw [solve_chinese_postman, h1]
  show (match find_eulerian_circuit eg s? with
    | Except.error e => Except.error e
    | Except.ok circuit =>
      Except.ok (⟨(g.edges.map (fun e => edgeWeight g e.1 e.2.1)).sum + added,
        circuit.map (fun st => (st.1, st.2, edgeWeight eg st.1 st.2))⟩ : Solution)) =
      Except.error err
  rw [h2]

theorem solve_err_amm (g : G) (s? : Option Nat) (err : Err)
    (h1 : add_minimum_weight_matching g = .error err) :
    solve_chinese_postman g s? = .error err := by
  rw [solve_chinese_postman, h1]

theorem solve_ok (g : G) (s? : Option Nat) (eg : G) (added : Nat)
    (circuit : List (Nat × Nat))
    (h1 : add_minimum_weight_matching g = .ok (eg, added))
    (h2 : find_eulerian_circuit eg s? = .ok circuit) :
    solve_chinese_postman g s? =
      .ok ⟨(g.edges.map (fun e => edgeWeight g e.1 e.2.1)).sum + added,
        circuit.map (fun st => (st.1, st.2, edgeWeight eg st.1 st.2))⟩ := by
  rw [solve_chinese_postman, h1]
  show (match find_eulerian_circuit eg s? with
    | Except.error e => Except.error e
    | Except.ok circuit =>
      Except.ok (⟨(g.edges.map (fun e => edgeWeight g e.1 e.2.1)).sum + added,
        circuit.map (fun st => (st.1, st.2, edgeWeight eg st.1 st.2))⟩ : Solution)) =
      Except.ok (⟨(g.edges.map (fun e => edgeWeight g e.1 e.2.1)).sum + added,
        circuit.map (fun st => (st.1, st.2, edgeWeight eg st.1 st.2))⟩ : Solution)
  rw [h2]

theorem is_connected_eq_cons {mg : G} {n : Nat} {ns : List Nat} (h : mg.nodes = n :: ns) :
    is_connected mg = .ok ((n :: ns).all (fun v => hasPathB mg n v)) := by
  rw [is_connected.eq_def, h]

theorem is_eulerian_nil {mg : G} (h : mg.nodes = []) : is_eulerian mg = .error .pointless := by
  rw [is_eulerian, if_pos (by rw [h]; rfl), is_connected.eq_def, h]

theorem is_eulerian_ev_false {mg : G}
    (hev : mg.nodes.all (fun v => degL mg.edges v % 2 == 0) = false) :
    is_eulerian mg = .ok false := by
  rw [is_eulerian, if_neg (by simp [hev])]

theorem is_eulerian_conn_false {mg : G} {n : Nat} {ns : List Nat} (h : mg.nodes = n :: ns)
    (hev : mg.nodes.all (fun v => degL mg.edges v % 2 == 0) = true)
    (hc : (n :: ns).all (fun v => hasPathB mg n v) = false) :
    is_eulerian mg = .ok false := by
  rw [is_eulerian, if_pos hev, is_connected_eq_cons h, hc]

theorem is_eulerian_true {mg : G} {n : Nat} {ns : List Nat} (h : mg.nodes = n :: ns)
    (hev : mg.nodes.all (fun v => degL mg.edges v % 2 == 0) = true)
    (hc : (n :: ns).all (fun v => hasPathB mg n v) = true) :
    is_eulerian mg = .ok true := by
  rw [is_eulerian, if_pos hev, is_connected_eq_cons h, hc]

theorem find_eulerian_of_error {mg : G} {err : Err} (h : is_eulerian mg = .error err)
    (s? : Option Nat) : find_eulerian_circuit mg s? = .error err := by
  rw [find_eulerian_circuit.eq_def, h]

theorem find_eulerian_of_false {mg : G} (h : is_eulerian mg = .ok false)
    (s? : Option Nat) : find_eulerian_circuit mg s? = .error .notEulerian := by
  rw [find_eulerian_circuit.eq_def, h]

theorem find_eulerian_of_true_some {mg : G} (h : is_eulerian mg = .ok true) {s : Nat}
    (hmem : s ∈ mg.nodes) :
    find_eulerian_circuit mg (some s) = .ok (euler mg.edges.length mg.edges s).1 := by
  rw [find_eulerian_circuit.eq_def, h]
  show (if s ∈ mg.nodes then Except.ok (euler mg.edges.length mg.edges s).1
      else Except.error Err.keyError) = Except.ok (euler mg.edges.length mg.edges s).1
  rw [if_pos hmem]

theorem find_eulerian_of_true_none {mg : G} (h : is_eulerian mg = .ok true)
    (hmem : mg.nodes.headD 0 ∈ mg.nodes) :
    find_eulerian_circuit mg none =
      .ok (euler mg.edges.length mg.edges (mg.nodes.headD 0)).1 := by
  rw [find_eulerian_circuit.eq_def, h]
  show (if mg.nodes.headD 0 ∈ mg.nodes then
        Except.ok (euler mg.edges.length mg.edges (mg.nodes.headD 0)).1
      else Except.error Err.keyError) =
      Except.ok (euler mg.edges.length mg.edges (mg.nodes.headD 0)).1
  rw [if_pos hmem]

/-! ### Behavior on graphs with no edges (C5) -/

/-- C5 counterexample: on the single-vertex graph with no edges, `solve`
returns a result (total cost 0, empty circuit) instead of raising any
error — there is no `EmptyGraphError` in the code. -/
theorem claim_C5_counterexample :
    (⟨[7], []⟩ : G).edges = [] ∧
    solve_chinese_postman ⟨[7], []⟩ none = .ok ⟨0, []⟩ := by
  constructor
  · rfl
  · decide

/-- C5 (amended).  On a graph with no edges the solver raises only through
the Eulerian check: with no nodes the connectivity test is undefined
(pointless-concept error), with at least two nodes the not-Eulerian error is
raised, and with exactly one node `solve` returns total cost `0` and an empty
circuit rather than raising. -/
theorem claim_C5 (g : G) (hWF : WF g) (h : g.edges = []) :
    (g.nodes = [] → solve_chinese_postman g none = .error .pointless) ∧
    (2 ≤ g.nodes.length → solve_chinese_postman g none = .error .notEulerian) ∧
    (g.nodes.length = 1 → solve_chinese_postman g none = .ok ⟨0, []⟩) := by
  have hamm := amm_empty g (odd_nil_of_no_edges g h)
  have hev : g.nodes.all (fun v => degL g.edges v % 2 == 0) = true := by
    rw [List.all_eq_true]
    intro v _
    simp [degL, endpointsL, h]
  refine ⟨?_, ?_, ?_⟩
  · intro hn
    exact solve_err g none g 0 .pointless hamm
      (find_eulerian_of_error (is_eulerian_nil hn) none)
  · intro hlen
    cases hn : g.nodes with
    | nil => rw [hn] at hlen; simp at hlen
    | cons n ns =>
      cases hns : ns with
      | nil => rw [hn, hns] at hlen; simp at hlen
      | cons m ms =>
        have hnm : n ≠ m := by
          have hnd : g.nodes.Nodup := hWF.1
          rw [hn, hns] at hnd
          intro hh
          exact (List.nodup_cons.mp hnd).1 (hh ▸ List.mem_cons_self _ _)
        have hc : (n :: ns).all (fun v => hasPathB g n v) = false := by
          rw [List.all_eq_false]
          refine ⟨m, by rw [hns]; exact List.mem_cons_of_mem _ (List.mem_cons_self _ _), ?_⟩
          rw [hasPathB_no_edges h hnm]
          simp
        rw [← hns] at *
        exact solve_err g none g 0 .notEulerian hamm
          (find_eulerian_of_false (is_eulerian_conn_false hn hev hc) none)
  · intro hlen
    cases hn : g.nodes with
    | nil => rw [hn] at hlen; simp at hlen
    | cons n ns =>
      have hnsnil : ns = [] := by
        rw [hn] at hlen
        simpa using hlen
      subst hnsnil
      have hc : [n].all (fun v => hasPathB g n v) = true := by
        simp [hasPathB_refl]
      have hiseu := is_eulerian_true hn hev hc
      have hhd : g.nodes.headD 0 ∈ g.nodes := by
        rw [hn]
        exact List.mem_cons_self _ _
      have hfind := find_eulerian_of_true_none hiseu hhd
      have hcirc : (euler g.edges.length g.edges (g.nodes.headD 0)).1 = [] := by
        rw [h]
        rfl
      rw [hcirc] at hfind
      rw [solve_ok g none g 0 [] hamm hfind]
      simp [h]

/-- Witness for C5 at the two-node edgeless graph. -/
theorem claim_C5_witness :
    WF ⟨[4, 5], []⟩ ∧ (⟨[4, 5], []⟩ : G).edges = [] ∧ 2 ≤ (⟨[4, 5], []⟩ : G).nodes.length ∧
    solve_chinese_postman ⟨[4, 5], []⟩ none = .error .notEulerian :=
  ⟨by decide, rfl, by decide, (claim_C5 ⟨[4, 5], []⟩ (by decide) rfl).2.1 (by decide)⟩

/-! ### Behavior on disconnected graphs (C4) -/

theorem amm_nodes_sup {g eg : G} {w : Nat} (hWF : WF g)
    (h : add_minimum_weight_matching g = .ok (eg, w)) :
    ∀ e ∈ g.edges, e.1 ∈ eg.nodes ∧ e.2.1 ∈ eg.nodes := by
  rcases amm_ok_shape g eg w h with ⟨_, heg, _⟩ | ⟨extra, hn, _, _, _⟩
  · rw [heg]
    intro e he
    exact ⟨(hWF.2.1 e he).1, (hWF.2.1 e he).2.1⟩
  · intro e he
    rw [hn]
    constructor
    · exact mem_nodesFromEdges.mpr (mem_endpointsL.mpr ⟨e, List.mem_append_left _ he, Or.inl rfl⟩)
    · exact mem_nodesFromEdges.mpr (mem_endpointsL.mpr ⟨e, List.mem_append_left _ he, Or.inr rfl⟩)

/-- C4 counterexample: a disconnected graph (vertex 9 is a second component)
on which `solve` raises nothing at all and returns a complete route — because
the multigraph rebuilt by eulerization only retains vertices incident to
edges, the isolated vertex disappears before the connectivity check. -/
theorem claim_C4_counterexample :
    (0 ∈ (⟨[0, 1, 2, 9], [(0, 1, 1), (1, 2, 1)]⟩ : G).nodes ∧
     9 ∈ (⟨[0, 1, 2, 9], [(0, 1, 1), (1, 2, 1)]⟩ : G).nodes ∧
     hasPathB ⟨[0, 1, 2, 9], [(0, 1, 1), (1, 2, 1)]⟩ 0 9 = false) ∧
    isOk (solve_chinese_postman ⟨[0, 1, 2, 9], [(0, 1, 1), (1, 2, 1)]⟩ none) = true := by
  decide

/-- C4 (amended).  When two edges of the input lie in different connected
components, `solve` raises the not-Eulerian error from the circuit
extractor's check (there are no `DisconnectedGraphError` or
`NoPerfectMatchingError` classes in the code; unreachable odd pairs are
silently skipped when the auxiliary graph is built) and never returns a
route.  A disconnected graph whose other components are isolated vertices is
not detected (see the counterexample). -/
theorem claim_C4 (g : G) (hWF : WF g) (e1 e2 : Edge)
    (h1 : e1 ∈ g.edges) (h2 : e2 ∈ g.edges)
    (hsep : hasPathB g e1.1 e2.1 = false) :
    solve_chinese_postman g none = .error .notEulerian := by
  obtain ⟨⟨eg, added⟩, hamm⟩ := amm_total g
  obtain ⟨extra, hedges, hadj⟩ := amm_extra_edges hamm
  have hn1 : e1.1 ∈ eg.nodes := (amm_nodes_sup hWF hamm e1 h1).1
  have hn2 : e2.1 ∈ eg.nodes := (amm_nodes_sup hWF hamm e2 h2).1
  rw [solve_err g none eg added .notEulerian hamm ?_]
  by_cases hev : eg.nodes.all (fun v => degL eg.edges v % 2 == 0)
  · cases hnodes : eg.nodes with
    | nil => rw [hnodes] at hn1; cases hn1
    | cons n ns =>
      by_cases hall : (n :: ns).all (fun v => hasPathB eg n v)
      · exfalso
        have hp1 : hasPathB eg n e1.1 = true :=
          List.all_eq_true.mp hall e1.1 (hnodes ▸ hn1)
        have hp2 : hasPathB eg n e2.1 = true :=
          List.all_eq_true.mp hall e2.1 (hnodes ▸ hn2)
        have hw : hasWalk eg.edges e1.1 e2.1 :=
          hasWalk_trans (hasWalk_symm (hasWalk_of_hasPathB hp1)) (hasWalk_of_hasPathB hp2)
        have hwg : hasWalk g.edges e1.1 e2.1 := by
          have hadj1 : ∀ e ∈ extra, adjB g.edges e.1 e.2.1 = true :=
            fun e he => (hadj e he).1
          exact hasWalk_append_elim hadj1 (hedges ▸ hw)
        have := hasPathB_of_hasWalk
          (fun e he => ⟨(hWF.2.1 e he).1, (hWF.2.1 e he).2.1⟩) hwg
        rw [hsep] at this
        cases this
      · exact find_eulerian_of_false
          (is_eulerian_conn_false hnodes hev (by simpa using hall)) none
  · exact find_eulerian_of_false (is_eulerian_ev_false (by simpa using hev)) none

/-- Witness for C4 at the two-separate-edges graph of the spec's scenario. -/
theorem claim_C4_witness :
    WF ⟨[0, 1, 2, 3], [(0, 1, 1), (2, 3, 1)]⟩ ∧
    (0, 1, 1) ∈ (⟨[0, 1, 2, 3], [(0, 1, 1), (2, 3, 1)]⟩ : G).edges ∧
    (2, 3, 1) ∈ (⟨[0, 1, 2, 3], [(0, 1, 1), (2, 3, 1)]⟩ : G).edges ∧
    hasPathB ⟨[0, 1, 2, 3], [(0, 1, 1), (2, 3, 1)]⟩ 0 2 = false ∧
    solve_chinese_postman ⟨[0, 1, 2, 3], [(0, 1, 1), (2, 3, 1)]⟩ none = .error .notEulerian :=
  ⟨by decide, by decide, by decide, by decide,
    claim_C4 ⟨[0, 1, 2, 3], [(0, 1, 1), (2, 3, 1)]⟩ (by decide) (0, 1, 1) (2, 3, 1)
      (by decide) (by decide) (by decide)⟩

/-! ### Weight lookups on a well-formed graph (C6, C8 support) -/

theorem np_comm (a b : Nat) : np a b = np b a := by
  simp [np, Nat.min_comm, Nat.max_comm]

theorem edgeWeight_of_mem {g : G} (hWF : WF g) {e : Edge} (he : e ∈ g.edges) :
    edgeWeight g e.1 e.2.1 = e.2.2 := by
  rw [edgeWeight]
  cases hf : g.edges.find?
      (fun f => (f.1 == e.1 && f.2.1 == e.2.1) || (f.1 == e.2.1 && f.2.1 == e.1)) with
  | none =>
    exfalso
    have := List.find?_eq_none.mp hf e he
    simp at this
  | some f =>
    have hfm : f ∈ g.edges := List.mem_of_find?_eq_some hf
    have hfp := List.find?_some hf
    have hnp : normE f = normE e := by
      simp only [Bool.or_eq_true, Bool.and_eq_true, beq_iff_eq] at hfp
      rcases hfp with ⟨ha, hb⟩ | ⟨ha, hb⟩
      · simp [normE, ha, hb]
      · simp only [normE, ha, hb]
        exact np_comm _ _
    have hfe : f = e :=
      List.inj_on_of_nodup_map hWF.2.2 hfm he hnp
    rw [hfe]

theorem original_cost_eq {g : G} (hWF : WF g) :
    (g.edges.map (fun e => edgeWeight g e.1 e.2.1)).sum = totalW g.edges := by
  rw [totalW]
  congr 1
  apply List.map_congr_left
  intro e he
  exact edgeWeight_of_mem hWF he

/-- C6.  If the graph is already Eulerian (connected, all degrees even), the
matching step contributes nothing — `add_minimum_weight_matching` returns the
graph itself with added weight `0` — and `solve` succeeds with total cost
exactly the sum of the original edge weights; concretely, on the 4-cycle the
total cost is `4` and the circuit has length `4`. -/
theorem claim_C6 :
    (∀ (g : G), WF g → connectedB g = true →
      (∀ v ∈ g.nodes, degL g.edges v % 2 = 0) →
      add_minimum_weight_matching g = .ok (g, 0) ∧
      ∃ sol, solve_chinese_postman g none = .ok sol ∧ sol.total_cost = totalW g.edges) ∧
    (∃ sol, solve_chinese_postman
        ⟨[0, 1, 2, 3], [(0, 1, 1), (1, 2, 1), (2, 3, 1), (3, 0, 1)]⟩ none = .ok sol ∧
      sol.total_cost = 4 ∧ sol.circuit.length = 4) := by
  constructor
  · intro g hWF hconn hev
    have hodd : find_odd_degree_vertices g = [] := by
      rw [find_odd_degree_vertices, List.filter_eq_nil_iff]
      intro v hv
      simp [hev v hv]
    have hamm := amm_empty g hodd
    refine ⟨hamm, ?_⟩
    cases hn : g.nodes with
    | nil =>
      rw [connectedB.eq_def, hn] at hconn
      exact Bool.noConfusion (show false = true from hconn)
    | cons n ns =>
      have hc : (n :: ns).all (fun v => hasPathB g n v) = true := by
        rw [connectedB.eq_def, hn] at hconn
        exact hconn
      have hevB : g.nodes.all (fun v => degL g.edges v % 2 == 0) = true := by
        rw [List.all_eq_true]
        intro v hv
        simpa using hev v hv
      have hiseu := is_eulerian_true hn hevB hc
      have hhd : g.nodes.headD 0 ∈ g.nodes := by
        rw [hn]
        exact List.mem_cons_self _ _
      have hfind := find_eulerian_of_true_none hiseu hhd
      refine ⟨_, solve_ok g none g 0 _ hamm hfind, ?_⟩
      show (g.edges.map (fun e => edgeWeight g e.1 e.2.1)).sum + 0 = totalW g.edges
      rw [original_cost_eq hWF]
      omega
  · exact ⟨⟨4, [(0, 1, 1), (1, 2, 1), (2, 3, 1), (3, 0, 1)]⟩, by decide, rfl, rfl⟩

/-- Witness for C6 at the 4-cycle. -/
theorem claim_C6_witness :
    WF ⟨[0, 1, 2, 3], [(0, 1, 1), (1, 2, 1), (2, 3, 1), (3, 0, 1)]⟩ ∧
    connectedB ⟨[0, 1, 2, 3], [(0, 1, 1), (1, 2, 1), (2, 3, 1), (3, 0, 1)]⟩ = true ∧
    add_minimum_weight_matching ⟨[0, 1, 2, 3], [(0, 1, 1), (1, 2, 1), (2, 3, 1), (3, 0, 1)]⟩ =
      .ok (⟨[0, 1, 2, 3], [(0, 1, 1), (1, 2, 1), (2, 3, 1), (3, 0, 1)]⟩, 0) :=
  ⟨by decide, by decide,
    (claim_C6.1 ⟨[0, 1, 2, 3], [(0, 1, 1), (1, 2, 1), (2, 3, 1), (3, 0, 1)]⟩
      (by decide) (by decide) (by decide)).1⟩

/-! ### The Hierholzer traversal: basic facts -/

theorem pickEdge_none {x : Nat} :
    ∀ {es : List Edge}, pickEdge x es = none → ∀ e ∈ es, incidentB x e = false := by
  intro es
  induction es with
  | nil => intro _ e he; cases he
  | cons f fs ih =>
    intro h e he
    rw [pickEdge] at h
    by_cases hf : incidentB x f
    · rw [if_pos hf] at h
      cases h
    · rw [if_neg hf] at h
      rcases List.mem_cons.mp he with he1 | he2
      · rw [he1]
        simpa using hf
      · cases hrec : pickEdge x fs with
        | some pr => rw [hrec] at h; cases h
        | none => exact ih hrec e he2

theorem pickEdge_some {x : Nat} :
    ∀ {es : List Edge} {e : Edge} {es' : List Edge}, pickEdge x es = some (e, es') →
      incidentB x e = true ∧ es'.Sublist es ∧ es.Perm (e :: es') := by
  intro es
  induction es with
  | nil => intro e es' h; cases h
  | cons f fs ih =>
    intro e es' h
    rw [pickEdge] at h
    by_cases hf : incidentB x f
    · rw [if_pos hf] at h
      cases h
      exact ⟨hf, List.sublist_cons_self _ _, List.Perm.refl _⟩
    · rw [if_neg hf] at h
      cases hrec : pickEdge x fs with
      | none => rw [hrec] at h; cases h
      | some pr =>
        obtain ⟨e0, es0⟩ := pr
        rw [hrec] at h
        cases h
        obtain ⟨hi, hsub, hperm⟩ := ih hrec
        refine ⟨hi, List.Sublist.cons₂ f hsub, ?_⟩
        exact (hperm.cons f).trans (List.Perm.swap e f es0)

theorem adjB_sublist {es fs : List Edge} (h : es.Sublist fs) {a b : Nat}
    (ha : adjB es a b = true) : adjB fs a b = true := by
  rw [adjB_iff] at ha ⊢
  obtain ⟨e, he, hor⟩ := ha
  exact ⟨e, h.subset he, hor⟩

theorem otherEnd_adj {x : Nat} {e : Edge} (h : incidentB x e = true)
    {es : List Edge} (he : e ∈ es) : adjB es x (otherEnd x e) = true := by
  rw [incidentB, Bool.or_eq_true, beq_iff_eq, beq_iff_eq] at h
  rw [otherEnd, adjB_iff]
  rcases h with h1 | h2
  · rw [if_pos (by simpa using h1)]
    exact ⟨e, he, Or.inl ⟨h1, rfl⟩⟩
  · by_cases hq : e.1 = x
    · rw [if_pos (by simpa using hq)]
      exact ⟨e, he, Or.inl ⟨hq, rfl⟩⟩
    · rw [if_neg (by simpa using hq)]
      exact ⟨e, he, Or.inr ⟨rfl, h2⟩⟩

theorem euler_sub : ∀ (fuel : Nat) (es : List Edge) (x : Nat),
    ((euler fuel es x).2).Sublist es := by
  intro fuel
  induction fuel with
  | zero => intro es x; exact List.Sublist.refl _
  | succ fuel ih =>
    intro es x
    rw [euler]
    cases hpick : pickEdge x es with
    | none => exact List.Sublist.refl _
    | some pr =>
      obtain ⟨e, es'⟩ := pr
      obtain ⟨_, hsub, _⟩ := pickEdge_some hpick
      have h1 := ih es' (otherEnd x e)
      have h2 := ih (euler fuel es' (otherEnd x e)).2 x
      exact (h2.trans h1).trans hsub

theorem euler_steps_adj : ∀ (fuel : Nat) (es : List Edge) (x : Nat),
    ∀ st ∈ (euler fuel es x).1, adjB es st.1 st.2 = true := by
  intro fuel
  induction fuel with
  | zero => intro es x st hst; cases hst
  | succ fuel ih =>
    intro es x st hst
    rw [euler] at hst
    cases hpick : pickEdge x es with
    | none => rw [hpick] at hst; cases hst
    | some pr =>
      obtain ⟨e, es'⟩ := pr
      rw [hpick] at hst
      obtain ⟨hinc, hsub, _⟩ := pickEdge_some hpick
      simp only [List.mem_append, List.mem_cons] at hst
      rcases hst with hB | hxy | hA
      · have := ih (euler fuel es' (otherEnd x e)).2 x st hB
        exact adjB_sublist ((euler_sub fuel es' (otherEnd x e)).trans hsub) this
      · rw [hxy]
        exact otherEnd_adj hinc
          (((pickEdge_some hpick).2.2.mem_iff).mpr (List.mem_cons_self _ _))
      · have := ih es' (otherEnd x e) st hA
        exact adjB_sublist hsub this

theorem find_eulerian_ok_inv {mg : G} {s? : Option Nat} {circuit : List (Nat × Nat)}
    (h : find_eulerian_circuit mg s? = .ok circuit) :
    ∃ s, s ∈ mg.nodes ∧ is_eulerian mg = .ok true ∧
      circuit = (euler mg.edges.length mg.edges s).1 ∧
      (s? = some s ∨ (s? = none ∧ s = mg.nodes.headD 0)) := by
  rw [find_eulerian_circuit.eq_def] at h
  cases hiseu : is_eulerian mg with
  | error e => rw [hiseu] at h; cases h
  | ok b =>
    cases b with
    | false => rw [hiseu] at h; cases h
    | true =>
      rw [hiseu] at h
      cases s? with
      | some s =>
        have h' : (if s ∈ mg.nodes then Except.ok (euler mg.edges.length mg.edges s).1
            else Except.error Err.keyError) = Except.ok circuit := h
        by_cases hs : s ∈ mg.nodes
        · rw [if_pos hs] at h'
          cases h'
          exact ⟨s, hs, rfl, rfl, Or.inl rfl⟩
        · rw [if_neg hs] at h'
          cases h'
      | none =>
        have h' : (if mg.nodes.headD 0 ∈ mg.nodes then
              Except.ok (euler mg.edges.length mg.edges (mg.nodes.headD 0)).1
            else Except.error Err.keyError) = Except.ok circuit := h
        by_cases hs : mg.nodes.headD 0 ∈ mg.nodes
        · rw [if_pos hs] at h'
          cases h'
          exact ⟨mg.nodes.headD 0, hs, rfl, rfl, Or.inr ⟨rfl, rfl⟩⟩
        · rw [if_neg hs] at h'
          cases h'

theorem find?_congr {p q : Edge → Bool} (hpq : ∀ e, p e = q e) :
    ∀ (es : List Edge), es.find? p = es.find? q := by
  intro es
  induction es with
  | nil => rfl
  | cons e es ih =>
    rw [List.find?_cons, List.find?_cons, hpq e]
    cases q e
    · exact ih
    · rfl

theorem edgeWeight_comm (g : G) (u v : Nat) : edgeWeight g u v = edgeWeight g v u := by
  rw [edgeWeight, edgeWeight]
  rw [find?_congr (fun e => by rw [Bool.or_comm]) g.edges]

/-- C8.  In the eulerized multigraph every edge between a vertex pair — the
original and all duplicated parallel copies — carries the weight of the
original edge between that pair, so the key-`0` lookup used by `solve` to
annotate the circuit reports the weight of the original edge of the traversed
pair. -/
theorem claim_C8 (g : G) (hWF : WF g) (eg : G) (w : Nat)
    (h : add_minimum_weight_matching g = .ok (eg, w)) :
    (∀ e ∈ eg.edges, e.2.2 = edgeWeight g e.1 e.2.1) ∧
    (∀ u v, adjB eg.edges u v = true → edgeWeight eg u v = edgeWeight g u v) ∧
    (∀ s? sol, solve_chinese_postman g s? = .ok sol →
      ∀ t ∈ sol.circuit, t.2.2 = edgeWeight g t.1 t.2.1) := by
  obtain ⟨extra, hedges, hadj⟩ := amm_extra_edges h
  have part1 : ∀ e ∈ eg.edges, e.2.2 = edgeWeight g e.1 e.2.1 := by
    intro e he
    rw [hedges] at he
    rcases List.mem_append.mp he with he1 | he2
    · exact (edgeWeight_of_mem hWF he1).symm
    · exact (hadj e he2).2.2
  have part2 : ∀ u v, adjB eg.edges u v = true → edgeWeight eg u v = edgeWeight g u v := by
    intro u v hA
    rw [adjB_iff] at hA
    obtain ⟨e, he, hor⟩ := hA
    have hsome : (eg.edges.find?
        (fun f => (f.1 == u && f.2.1 == v) || (f.1 == v && f.2.1 == u))).isSome := by
      apply List.find?_isSome.mpr
      refine ⟨e, he, ?_⟩
      rcases hor with ⟨h1, h2⟩ | ⟨h1, h2⟩
      · simp [h1, h2]
      · simp [h1, h2]
    cases hf : eg.edges.find?
        (fun f => (f.1 == u && f.2.1 == v) || (f.1 == v && f.2.1 == u)) with
    | none => rw [hf] at hsome; cases hsome
    | some f =>
      have hfw : edgeWeight eg u v = f.2.2 := by
        rw [edgeWeight, hf]
      have hfm : f ∈ eg.edges := List.mem_of_find?_eq_some hf
      have hfp := List.find?_some hf
      simp only [Bool.or_eq_true, Bool.and_eq_true, beq_iff_eq] at hfp
      rw [hfw, part1 f hfm]
      rcases hfp with ⟨h1, h2⟩ | ⟨h1, h2⟩
      · rw [h1, h2]
      · rw [h1, h2]
        exact edgeWeight_comm g v u
  refine ⟨part1, part2, ?_⟩
  intro s? sol hsol
  rw [solve_chinese_postman, h] at hsol
  have hsol' : (match find_eulerian_circuit eg s? with
    | Except.error e => Except.error e
    | Except.ok circuit =>
      Except.ok (⟨(g.edges.map (fun e => edgeWeight g e.1 e.2.1)).sum + w,
        circuit.map (fun st => (st.1, st.2, edgeWeight eg st.1 st.2))⟩ : Solution)) =
      Except.ok sol := hsol
  cases hfind : find_eulerian_circuit eg s? with
  | error e => rw [hfind] at hsol'; cases hsol'
  | ok circuit =>
    rw [hfind] at hsol'
    cases hsol'
    intro t ht
    obtain ⟨st, hst, hste⟩ := List.mem_map.mp ht
    obtain ⟨s, _, _, hcirc, _⟩ := find_eulerian_ok_inv hfind
    have hadj' : adjB eg.edges st.1 st.2 = true := by
      apply euler_steps_adj eg.edges.length eg.edges s st
      rw [← hcirc]
      exact hst
    rw [← hste]
    show edgeWeight eg st.1 st.2 = edgeWeight g st.1 st.2
    exact part2 st.1 st.2 hadj'

/-- Witness for C8 at the path graph `0 - 1 - 2`, whose eulerization
duplicates both edges. -/
theorem claim_C8_witness :
    add_minimum_weight_matching ⟨[0, 1, 2], [(0, 1, 1), (1, 2, 1)]⟩ =
      .ok (⟨[0, 1, 2], [(0, 1, 1), (1, 2, 1), (0, 1, 1), (1, 2, 1)]⟩, 2) ∧
    ∀ e ∈ (⟨[0, 1, 2], [(0, 1, 1), (1, 2, 1), (0, 1, 1), (1, 2, 1)]⟩ : G).edges,
      e.2.2 = edgeWeight ⟨[0, 1, 2], [(0, 1, 1), (1, 2, 1)]⟩ e.1 e.2.1 :=
  ⟨by decide,
    (claim_C8 ⟨[0, 1, 2], [(0, 1, 1), (1, 2, 1)]⟩ (by decide)
      ⟨[0, 1, 2], [(0, 1, 1), (1, 2, 1), (0, 1, 1), (1, 2, 1)]⟩ 2 (by decide)).1⟩

/-! ### Chains of steps and degree accounting -/

theorem touched_append (t1 t2 : List (Nat × Nat)) :
    touched (t1 ++ t2) = touched t1 ++ touched t2 := by
  simp [touched]

theorem touched_cons (a b : Nat) (t : List (Nat × Nat)) :
    touched ((a, b) :: t) = a :: b :: touched t := by
  simp [touched]

theorem isChainFrom_append {x : Nat} : ∀ {t1 t2 : List (Nat × Nat)},
    isChainFrom x t1 = true → isChainFrom (chainEnd x t1) t2 = true →
    isChainFrom x (t1 ++ t2) = true := by
  intro t1
  induction t1 generalizing x with
  | nil => intro t2 _ h2; exact h2
  | cons st t1 ih =>
    intro t2 h1 h2
    obtain ⟨a, b⟩ := st
    rw [isChainFrom, Bool.and_eq_true] at h1
    rw [List.cons_append, isChainFrom, Bool.and_eq_true]
    exact ⟨h1.1, ih h1.2 h2⟩

theorem chainEnd_append (x : Nat) : ∀ (t1 t2 : List (Nat × Nat)),
    chainEnd x (t1 ++ t2) = chainEnd (chainEnd x t1) t2 := by
  intro t1
  induction t1 generalizing x with
  | nil => intro t2; rfl
  | cons st t1 ih =>
    intro t2
    obtain ⟨a, b⟩ := st
    rw [List.cons_append, chainEnd, chainEnd]
    exact ih b t2

theorem count_cons_ind (z w : Nat) (l : List Nat) :
    (w :: l).count z = l.count z + (if z = w then 1 else 0) := by
  rw [List.count_cons]
  by_cases h : z = w
  · simp [h]
  · have h' : ¬ w = z := fun hh => h hh.symm
    simp [h, h']

theorem chain_touch_parity : ∀ (t : List (Nat × Nat)) (x z : Nat), isChainFrom x t = true →
    ((touched t).count z + (if z = x then 1 else 0) +
      (if z = chainEnd x t then 1 else 0)) % 2 = 0 := by
  intro t
  induction t with
  | nil =>
    intro x z _
    by_cases h : z = x <;> simp [touched, chainEnd, h]
  | cons st t ih =>
    intro x z hc
    obtain ⟨a, b⟩ := st
    rw [isChainFrom, Bool.and_eq_true, beq_iff_eq] at hc
    obtain ⟨hax, hct⟩ := hc
    subst hax
    have hIH := ih b z hct
    rw [touched_cons, chainEnd]
    rw [count_cons_ind, count_cons_ind]
    split_ifs at hIH ⊢ <;> omega

theorem degL_perm {es fs : List Edge} (h : es.Perm fs) (z : Nat) : degL es z = degL fs z := by
  rw [degL, degL, endpointsL, endpointsL]
  exact (List.Perm.flatMap_right _ h).count_eq z

theorem degL_cons (e : Edge) (es : List Edge) (z : Nat) :
    degL (e :: es) z =
      ((if z = e.1 then 1 else 0) + (if z = e.2.1 then 1 else 0)) + degL es z := by
  rw [degL, degL, endpointsL_cons, count_cons_ind, count_cons_ind]
  split_ifs <;> omega

theorem count_touched_np (z : Nat) : ∀ (t : List (Nat × Nat)),
    (touched (t.map (fun st => np st.1 st.2))).count z = (touched t).count z := by
  intro t
  induction t with
  | nil => rfl
  | cons st t ih =>
    obtain ⟨a, b⟩ := st
    rw [List.map_cons]
    show (touched ((np a b) :: _)).count z = _
    have h1 : touched ((np a b) :: t.map (fun st => np st.1 st.2)) =
        (np a b).1 :: (np a b).2 :: touched (t.map (fun st => np st.1 st.2)) := by
      simp [touched]
    rw [h1, touched_cons, count_cons_ind, count_cons_ind, count_cons_ind, count_cons_ind, ih]
    rcases Nat.le_total a b with hab | hab
    · rw [np]
      rw [Nat.min_eq_left hab, Nat.max_eq_right hab]
    · rw [np]
      rw [Nat.min_eq_right hab, Nat.max_eq_left hab]
      split_ifs <;> omega

theorem count_touched_normE (z : Nat) : ∀ (es : List Edge),
    (touched (es.map normE)).count z = degL es z := by
  intro es
  induction es with
  | nil => rfl
  | cons e es ih =>
    rw [List.map_cons]
    have h1 : touched (normE e :: es.map normE) =
        (normE e).1 :: (normE e).2 :: touched (es.map normE) := by
      simp [touched]
    rw [h1, count_cons_ind, count_cons_ind, ih, degL_cons]
    rw [normE, np]
    rcases Nat.le_total e.1 e.2.1 with hab | hab
    · rw [Nat.min_eq_left hab, Nat.max_eq_right hab]
      split_ifs <;> omega
    · rw [Nat.min_eq_right hab, Nat.max_eq_left hab]
      split_ifs <;> omega

/-- Degree accounting across the normalized multiset equation. -/
theorem degL_split_of_perm {es : List Edge} {t : List (Nat × Nat)} {es2 : List Edge}
    (h : (es.map normE).Perm (t.map (fun st => np st.1 st.2) ++ es2.map normE)) (z : Nat) :
    degL es z = (touched t).count z + degL es2 z := by
  have hc := (List.Perm.flatMap_right (fun p => [p.1, p.2]) h).count_eq z
  have h1 : (touched (es.map normE)).count z = degL es z := count_touched_normE z es
  have h2 : (touched (t.map (fun st => np st.1 st.2) ++ es2.map normE)).count z =
      (touched t).count z + degL es2 z := by
    rw [touched_append, List.count_append, count_touched_np, count_touched_normE]
  rw [← h1, ← h2]
  exact hc

theorem otherEnd_cases {x : Nat} {e : Edge} (h : incidentB x e = true) :
    (e.1 = x ∧ e.2.1 = otherEnd x e) ∨ (e.2.1 = x ∧ e.1 = otherEnd x e) := by
  rw [incidentB, Bool.or_eq_true, beq_iff_eq, beq_iff_eq] at h
  rw [otherEnd]
  rcases h with h1 | h2
  · rw [if_pos (by simpa using h1)]
    exact Or.inl ⟨h1, rfl⟩
  · by_cases hq : e.1 = x
    · rw [if_pos (by simpa using hq)]
      exact Or.inl ⟨hq, rfl⟩
    · rw [if_neg (by simpa using hq)]
      exact Or.inr ⟨h2, rfl⟩

theorem np_otherEnd {x : Nat} {e : Edge} (h : incidentB x e = true) :
    np x (otherEnd x e) = normE e := by
  rcases otherEnd_cases h with ⟨h1, h2⟩ | ⟨h1, h2⟩
  · rw [normE, h1, h2]
  · rw [normE, h1, h2]
    exact np_comm _ _

theorem otherEnd_ne {x : Nat} {e : Edge} (h : incidentB x e = true) (hne : e.1 ≠ e.2.1) :
    otherEnd x e ≠ x := by
  intro hh
  rcases otherEnd_cases h with ⟨h1, h2⟩ | ⟨h1, h2⟩ <;> omega

theorem degL_odd_incident {es : List Edge} {x : Nat} (h : degL es x % 2 = 1) :
    ∃ e ∈ es, incidentB x e = true := by
  have hpos : 0 < degL es x := by omega
  have hmem : x ∈ endpointsL es := List.count_pos_iff.mp hpos
  obtain ⟨e, he, hor⟩ := mem_endpointsL.mp hmem
  refine ⟨e, he, ?_⟩
  rw [incidentB, Bool.or_eq_true, beq_iff_eq, beq_iff_eq]
  exact hor

theorem perm_shuffle {α : Type} (c : α) (A B C : List α) :
    (c :: (A ++ (B ++ C))).Perm ((B ++ c :: A) ++ C) := by
  have h1 : ((B ++ c :: A) ++ C).Perm ((c :: (B ++ A)) ++ C) :=
    List.perm_middle.append_right C
  refine (h1.trans ?_).symm
  rw [List.cons_append]
  refine List.Perm.cons c ?_
  have h2 : ((B ++ A) ++ C).Perm ((A ++ B) ++ C) :=
    List.perm_append_comm.append_right C
  refine h2.trans ?_
  rw [List.append_assoc]

/-- Master invariant of the Hierholzer traversal: the traversal consumes a
sub-multiset of the edges matching its steps, leaves no unconsumed edge
incident to a visited vertex, and — under the parity preconditions — its
step list is a chain from the start ending at the start (all degrees even) or
at the other odd vertex (exactly two odd vertices). -/
theorem euler_master : ∀ (fuel : Nat) (es : List Edge) (x : Nat),
    es.length ≤ fuel → (∀ e ∈ es, e.1 ≠ e.2.1) →
    ((es.map normE).Perm ((euler fuel es x).1.map (fun st => np st.1 st.2) ++
        ((euler fuel es x).2).map normE) ∧
      (∀ e ∈ (euler fuel es x).2, incidentB x e = false ∧
        ∀ z ∈ touched (euler fuel es x).1, incidentB z e = false)) ∧
    ((∀ z, degL es z % 2 = 0) →
      isChainFrom x (euler fuel es x).1 = true ∧ chainEnd x (euler fuel es x).1 = x ∧
      (∀ z, degL (euler fuel es x).2 z % 2 = 0)) ∧
    (∀ w, x ≠ w →
      (∀ z, degL es z % 2 = (if z = x then 1 else if z = w then 1 else 0)) →
      isChainFrom x (euler fuel es x).1 = true ∧ chainEnd x (euler fuel es x).1 = w ∧
      (euler fuel es x).1 ≠ [] ∧ (∀ z, degL (euler fuel es x).2 z % 2 = 0)) := by
  intro fuel
  induction fuel with
  | zero =>
    intro es x hlen hnl
    have hes : es = [] := List.length_eq_zero.mp (Nat.le_zero.mp hlen)
    subst hes
    have h0 : euler 0 ([] : List Edge) x = ([], []) := rfl
    rw [h0]
    refine ⟨⟨by simp, ?_⟩, ?_, ?_⟩
    · intro e he
      cases he
    · intro hall
      exact ⟨rfl, rfl, fun z => by simp [degL, endpointsL]⟩
    · intro w hxw hdeg
      exfalso
      have := hdeg x
      rw [if_pos rfl] at this
      simp [degL, endpointsL] at this
  | succ fuel ih =>
    intro es x hlen hnl
    cases hpick : pickEdge x es with
    | none =>
      have heu : euler (fuel + 1) es x = ([], es) := by
        rw [euler, hpick]
      rw [heu]
      refine ⟨⟨by simp, ?_⟩, ?_, ?_⟩
      · intro e he
        exact ⟨pickEdge_none hpick e he, fun z hz => by cases hz⟩
      · intro hall
        exact ⟨rfl, rfl, hall⟩
      · intro w hxw hdeg
        exfalso
        have hodd : degL es x % 2 = 1 := by
          have := hdeg x
          rwa [if_pos rfl] at this
        obtain ⟨e, he, hince⟩ := degL_odd_incident hodd
        have := pickEdge_none hpick e he
        rw [hince] at this
        cases this
    | some pr =>
      obtain ⟨e, es'⟩ := pr
      obtain ⟨hinc, hsub, hperm⟩ := pickEdge_some hpick
      have hemem : e ∈ es := hperm.mem_iff.mpr (List.mem_cons_self _ _)
      have hyx : otherEnd x e ≠ x := otherEnd_ne hinc (hnl e hemem)
      have hlen' : es'.length ≤ fuel := by
        have hl := hperm.length_eq
        rw [List.length_cons] at hl
        omega
      have hnl' : ∀ e' ∈ es', e'.1 ≠ e'.2.1 := fun e' he' => hnl e' (hsub.subset he')
      obtain ⟨⟨hA_perm, hA_stuck⟩, hA_even, hA_odd⟩ := ih es' (otherEnd x e) hlen' hnl'
      have hlenA : (euler fuel es' (otherEnd x e)).2.length ≤ fuel :=
        le_trans (euler_sub fuel es' (otherEnd x e)).length_le hlen'
      have hnlA : ∀ e' ∈ (euler fuel es' (otherEnd x e)).2, e'.1 ≠ e'.2.1 :=
        fun e' he' => hnl' e' ((euler_sub fuel es' (otherEnd x e)).subset he')
      obtain ⟨⟨hB_perm, hB_stuck⟩, hB_even, hB_odd⟩ :=
        ih (euler fuel es' (otherEnd x e)).2 x hlenA hnlA
      have heu : euler (fuel + 1) es x =
          ((euler fuel (euler fuel es' (otherEnd x e)).2 x).1 ++
            (x, otherEnd x e) :: (euler fuel es' (otherEnd x e)).1,
           (euler fuel (euler fuel es' (otherEnd x e)).2 x).2) := by
        rw [euler, hpick]
      rw [heu]
      have hdeg_split : ∀ z, degL es z =
          (if z = x then 1 else 0) + (if z = otherEnd x e then 1 else 0) + degL es' z := by
        intro z
        rw [degL_perm hperm z, degL_cons]
        rcases otherEnd_cases hinc with ⟨h1, h2⟩ | ⟨h1, h2⟩ <;> split_ifs <;> omega
      have hm : (es.map normE).Perm
          (((euler fuel (euler fuel es' (otherEnd x e)).2 x).1 ++
            (x, otherEnd x e) :: (euler fuel es' (otherEnd x e)).1).map
              (fun st => np st.1 st.2) ++
            (euler fuel (euler fuel es' (otherEnd x e)).2 x).2.map normE) := by
        rw [List.map_append, List.map_cons]
        have h0 : (es.map normE).Perm (normE e :: es'.map normE) := by
          have := hperm.map normE
          rwa [List.map_cons] at this
        have hstep1 : (es.map normE).Perm
            (normE e :: ((euler fuel es' (otherEnd x e)).1.map (fun st => np st.1 st.2) ++
              (euler fuel es' (otherEnd x e)).2.map normE)) :=
          h0.trans (hA_perm.cons _)
        have hstep2 : (es.map normE).Perm
            (normE e :: ((euler fuel es' (otherEnd x e)).1.map (fun st => np st.1 st.2) ++
              ((euler fuel (euler fuel es' (otherEnd x e)).2 x).1.map (fun st => np st.1 st.2) ++
                (euler fuel (euler fuel es' (otherEnd x e)).2 x).2.map normE))) :=
          hstep1.trans ((hB_perm.append_left _).cons _)
        refine hstep2.trans ?_
        rw [show np (x, otherEnd x e).1 (x, otherEnd x e).2 = normE e from np_otherEnd hinc]
        exact perm_shuffle (normE e)
          ((euler fuel es' (otherEnd x e)).1.map (fun st => np st.1 st.2))
          ((euler fuel (euler fuel es' (otherEnd x e)).2 x).1.map (fun st => np st.1 st.2))
          ((euler fuel (euler fuel es' (otherEnd x e)).2 x).2.map normE)
      refine ⟨⟨hm, ?_⟩, ?_, ?_⟩
      · intro e' he'
        have hBstuck := hB_stuck e' he'
        have he'A : e' ∈ (euler fuel es' (otherEnd x e)).2 :=
          (euler_sub fuel (euler fuel es' (otherEnd x e)).2 x).subset he'
        have hAstuck := hA_stuck e' he'A
        refine ⟨hBstuck.1, ?_⟩
        intro z hz
        rw [touched_append] at hz
        rcases List.mem_append.mp hz with hzB | hzrest
        · exact hBstuck.2 z hzB
        · rw [touched_cons] at hzrest
          rcases List.mem_cons.mp hzrest with hzx | hz2
          · rw [hzx]
            exact hBstuck.1
          · rcases List.mem_cons.mp hz2 with hzy | hzA
            · rw [hzy]
              exact hAstuck.1
            · exact hAstuck.2 z hzA
      · intro hall
        have hdeg' : ∀ z, degL es' z % 2 =
            (if z = otherEnd x e then 1 else if z = x then 1 else 0) := by
          intro z
          have h1 := hdeg_split z
          have h2 := hall z
          split_ifs at h1 ⊢ <;> omega
        obtain ⟨hAchain, hAend, hAne, hAeven⟩ := hA_odd x hyx hdeg'
        obtain ⟨hBchain, hBend, hBeven⟩ := hB_even hAeven
        refine ⟨?_, ?_, hBeven⟩
        · apply isChainFrom_append hBchain
          rw [hBend, isChainFrom, Bool.and_eq_true]
          exact ⟨by simp, hAchain⟩
        · rw [chainEnd_append, hBend, chainEnd, hAend]
      · intro w hxw hdeg
        by_cases hyw : otherEnd x e = w
        · have hdeg' : ∀ z, degL es' z % 2 = 0 := by
            intro z
            have h1 := hdeg_split z
            have h2 := hdeg z
            rw [hyw] at h1
            split_ifs at h1 h2 <;> omega
          obtain ⟨hAchain, hAend, hAeven⟩ := hA_even hdeg'
          obtain ⟨hBchain, hBend, hBeven⟩ := hB_even hAeven
          refine ⟨?_, ?_, by simp, hBeven⟩
          · apply isChainFrom_append hBchain
            rw [hBend, isChainFrom, Bool.and_eq_true]
            exact ⟨by simp, hAchain⟩
          · rw [chainEnd_append, hBend, chainEnd, hAend, hyw]
        · have hdeg' : ∀ z, degL es' z % 2 =
              (if z = otherEnd x e then 1 else if z = w then 1 else 0) := by
            intro z
            have h1 := hdeg_split z
            have h2 := hdeg z
            split_ifs at h1 h2 ⊢ <;> omega
          obtain ⟨hAchain, hAend, hAne, hAeven⟩ := hA_odd w hyw hdeg'
          obtain ⟨hBchain, hBend, hBeven⟩ := hB_even hAeven
          refine ⟨?_, ?_, by simp, hBeven⟩
          · apply isChainFrom_append hBchain
            rw [hBend, isChainFrom, Bool.and_eq_true]
            exact ⟨by simp, hAchain⟩
          · rw [chainEnd_append, hBend, chainEnd, hAend]

/-! ### The traversal consumes every edge of a connected even graph -/

theorem np_eq_cases {a b c d : Nat} (h : np a b = np c d) :
    (a = c ∧ b = d) ∨ (a = d ∧ b = c) := by
  simp only [np, Prod.mk.injEq] at h
  omega

theorem mem_touched_of_mem {t : List (Nat × Nat)} {st : Nat × Nat} (h : st ∈ t) :
    st.1 ∈ touched t ∧ st.2 ∈ touched t := by
  constructor <;> · simp only [touched, List.mem_flatMap]
                    exact ⟨st, h, by simp⟩

theorem walk_closure {es : List Edge} (S : Nat → Prop)
    (hstep : ∀ a b, S a → adjB es a b = true → S b) :
    ∀ (p : List Nat), isWalkB es p = true → ∀ u, p.head? = some u → S u →
      ∀ z ∈ p, S z := by
  intro p
  induction p with
  | nil => intro _ u hh; simp at hh
  | cons a p ih =>
    intro hw u hh hSu z hz
    have hau : a = u := by simpa using hh
    subst hau
    rcases List.mem_cons.mp hz with hza | hzp
    · exact hza ▸ hSu
    · cases p with
      | nil => cases hzp
      | cons b rest =>
        have hsplit : adjB es a b = true ∧ isWalkB es (b :: rest) = true := by
          have hh2 : isWalkB es (a :: b :: rest) = (adjB es a b && isWalkB es (b :: rest)) := rfl
          rw [hh2, Bool.and_eq_true] at hw
          exact hw
        exact ih hsplit.2 b rfl (hstep a b hSu hsplit.1) z hzp

theorem is_eulerian_true_inv {mg : G} (h : is_eulerian mg = .ok true) :
    (∀ v ∈ mg.nodes, degL mg.edges v % 2 = 0) ∧
    ∃ n ns, mg.nodes = n :: ns ∧ ∀ v ∈ mg.nodes, hasPathB mg n v = true := by
  rw [is_eulerian] at h
  by_cases hev : mg.nodes.all (fun v => degL mg.edges v % 2 == 0)
  · rw [if_pos hev] at h
    refine ⟨fun v hv => by simpa using List.all_eq_true.mp hev v hv, ?_⟩
    cases hn : mg.nodes with
    | nil => rw [is_connected.eq_def, hn] at h; cases h
    | cons n ns =>
      rw [is_connected_eq_cons hn] at h
      injection h with h'
      exact ⟨n, ns, rfl, fun v hv => List.all_eq_true.mp h' v hv⟩
  · rw [if_neg hev] at h
    cases h

theorem degL_even_all {mg : G}
    (hep : ∀ e ∈ mg.edges, e.1 ∈ mg.nodes ∧ e.2.1 ∈ mg.nodes)
    (hev : ∀ v ∈ mg.nodes, degL mg.edges v % 2 = 0) :
    ∀ z, degL mg.edges z % 2 = 0 := by
  intro z
  by_cases hz : z ∈ endpointsL mg.edges
  · obtain ⟨e, he, hor⟩ := mem_endpointsL.mp hz
    rcases hor with h1 | h2
    · exact hev z (h1 ▸ (hep e he).1)
    · exact hev z (h2 ▸ (hep e he).2)
  · rw [degL, List.count_eq_zero.mpr hz]

theorem amm_eg_closed {g eg : G} {w : Nat} (hWF : WF g)
    (h : add_minimum_weight_matching g = .ok (eg, w)) :
    ∀ e ∈ eg.edges, e.1 ∈ eg.nodes ∧ e.2.1 ∈ eg.nodes := by
  rcases amm_ok_shape g eg w h with ⟨_, heg, _⟩ | ⟨extra, hn, he, _, _⟩
  · subst heg
    exact fun e he => ⟨(hWF.2.1 e he).1, (hWF.2.1 e he).2.1⟩
  · intro e he'
    rw [he] at he'
    rw [hn]
    exact ⟨mem_nodesFromEdges.mpr (mem_endpointsL.mpr ⟨e, he', Or.inl rfl⟩),
      mem_nodesFromEdges.mpr (mem_endpointsL.mpr ⟨e, he', Or.inr rfl⟩)⟩

theorem amm_eg_noloop {g eg : G} {w : Nat} (hWF : WF g)
    (h : add_minimum_weight_matching g = .ok (eg, w)) :
    ∀ e ∈ eg.edges, e.1 ≠ e.2.1 := by
  obtain ⟨extra, hedges, hadj⟩ := amm_extra_edges h
  intro e he
  rw [hedges] at he
  rcases List.mem_append.mp he with h1 | h2
  · exact (hWF.2.1 e h1).2.2
  · exact (hadj e h2).2.1

theorem euler_complete {mg : G}
    (hep : ∀ e ∈ mg.edges, e.1 ∈ mg.nodes ∧ e.2.1 ∈ mg.nodes)
    (hnl : ∀ e ∈ mg.edges, e.1 ≠ e.2.1)
    (hiseu : is_eulerian mg = .ok true) {s : Nat} (hs : s ∈ mg.nodes) :
    (euler mg.edges.length mg.edges s).2 = [] := by
  obtain ⟨hev, n, ns, hn, hconn⟩ := is_eulerian_true_inv hiseu
  obtain ⟨⟨hperm, hstuck⟩, _, _⟩ := euler_master mg.edges.length mg.edges s le_rfl hnl
  by_contra hne
  obtain ⟨e0, he0⟩ := List.exists_mem_of_ne_nil _ hne
  have hS : ∀ a b, (a = s ∨ a ∈ touched (euler mg.edges.length mg.edges s).1) →
      adjB mg.edges a b = true →
      (b = s ∨ b ∈ touched (euler mg.edges.length mg.edges s).1) := by
    intro a b hSa hadj
    rw [adjB_iff] at hadj
    obtain ⟨e', he', hor⟩ := hadj
    have hmemN : normE e' ∈
        (euler mg.edges.length mg.edges s).1.map (fun st => np st.1 st.2) ++
        (euler mg.edges.length mg.edges s).2.map normE :=
      hperm.subset (List.mem_map_of_mem _ he')
    rcases List.mem_append.mp hmemN with hmt | hmr
    · obtain ⟨st, hst, hstE⟩ := List.mem_map.mp hmt
      right
      have hcases := np_eq_cases (show np st.1 st.2 = np e'.1 e'.2.1 from hstE)
      have htch := mem_touched_of_mem hst
      have hb : b = st.1 ∨ b = st.2 := by
        rcases hcases with ⟨h1, h2⟩ | ⟨h1, h2⟩ <;> rcases hor with ⟨h3, h4⟩ | ⟨h3, h4⟩ <;> omega
      rcases hb with hb | hb
      · exact hb ▸ htch.1
      · exact hb ▸ htch.2
    · exfalso
      obtain ⟨e'', he'', hE⟩ := List.mem_map.mp hmr
      have hinc : incidentB a e'' = true := by
        rw [incidentB, Bool.or_eq_true, beq_iff_eq, beq_iff_eq]
        have hcases := np_eq_cases (show np e''.1 e''.2.1 = np e'.1 e'.2.1 from hE)
        rcases hcases with ⟨h1, h2⟩ | ⟨h1, h2⟩ <;> rcases hor with ⟨h3, h4⟩ | ⟨h3, h4⟩ <;> omega
      rcases hSa with hsa | hta
      · have hfalse := (hstuck e'' he'').1
        rw [hsa] at hinc
        rw [hfalse] at hinc
        cases hinc
      · have hfalse := (hstuck e'' he'').2 a hta
        rw [hfalse] at hinc
        cases hinc
  have he0n : e0.1 ∈ mg.nodes :=
    (hep e0 ((euler_sub mg.edges.length mg.edges s).subset he0)).1
  have hsW : hasWalk mg.edges s e0.1 :=
    hasWalk_trans (hasWalk_symm (hasWalk_of_hasPathB (hconn s hs)))
      (hasWalk_of_hasPathB (hconn e0.1 he0n))
  obtain ⟨p, hwp, hhp, hlp⟩ := hsW
  have he01 := walk_closure _ hS p hwp s hhp (Or.inl rfl) e0.1 (List.mem_of_mem_getLast? hlp)
  have hinc0 : incidentB e0.1 e0 = true := by
    rw [incidentB, Bool.or_eq_true, beq_iff_eq]
    exact Or.inl rfl
  rcases he01 with h | h
  · have hfalse := (hstuck e0 he0).1
    rw [h] at hinc0
    rw [hfalse] at hinc0
    cases hinc0
  · have hfalse := (hstuck e0 he0).2 e0.1 h
    rw [hfalse] at hinc0
    cases hinc0

/-! ### C2 and C3: the circuit is the edge multiset and a closed walk -/

theorem solve_ok_inv {g : G} {s? : Option Nat} {sol : Solution} {eg : G} {w : Nat}
    (hamm : add_minimum_weight_matching g = .ok (eg, w))
    (hsol : solve_chinese_postman g s? = .ok sol) :
    ∃ circuit, find_eulerian_circuit eg s? = .ok circuit ∧
      sol = ⟨(g.edges.map (fun e => edgeWeight g e.1 e.2.1)).sum + w,
        circuit.map (fun st => (st.1, st.2, edgeWeight eg st.1 st.2))⟩ := by
  rw [solve_chinese_postman, hamm] at hsol
  have hsol' : (match find_eulerian_circuit eg s? with
    | Except.error e => Except.error e
    | Except.ok circuit =>
      Except.ok (⟨(g.edges.map (fun e => edgeWeight g e.1 e.2.1)).sum + w,
        circuit.map (fun st => (st.1, st.2, edgeWeight eg st.1 st.2))⟩ : Solution)) =
      Except.ok sol := hsol
  cases hfind : find_eulerian_circuit eg s? with
  | error e => rw [hfind] at hsol'; cases hsol'
  | ok circuit =>
    rw [hfind] at hsol'
    injection hsol' with h'
    exact ⟨circuit, rfl, h'.symm⟩

/-- C2.  When `solve` succeeds, the multiset of unordered vertex pairs
traversed by the circuit is exactly the edge multiset of the Eulerian
multigraph produced by eulerization — every original and duplicated edge once,
no omissions and no repeats — and the circuit's length equals the
multigraph's edge count. -/
theorem claim_C2 (g : G) (hWF : WF g) (s? : Option Nat) (eg : G) (w : Nat) (sol : Solution)
    (hamm : add_minimum_weight_matching g = .ok (eg, w))
    (hsol : solve_chinese_postman g s? = .ok sol) :
    (sol.circuit.map (fun t => np t.1 t.2.1)).Perm (eg.edges.map normE) ∧
    sol.circuit.length = eg.edges.length := by
  obtain ⟨circuit, hfind, hsolEq⟩ := solve_ok_inv hamm hsol
  obtain ⟨s, hsmem, hiseu, hcirc, _⟩ := find_eulerian_ok_inv hfind
  have hrest := euler_complete (amm_eg_closed hWF hamm) (amm_eg_noloop hWF hamm) hiseu hsmem
  obtain ⟨⟨hperm, _⟩, _, _⟩ :=
    euler_master eg.edges.length eg.edges s le_rfl (amm_eg_noloop hWF hamm)
  rw [hrest, List.map_nil, List.append_nil] at hperm
  subst hsolEq
  constructor
  · show ((circuit.map (fun st => (st.1, st.2, edgeWeight eg st.1 st.2))).map
      (fun t => np t.1 t.2.1)).Perm (eg.edges.map normE)
    rw [List.map_map]
    show (circuit.map (fun st => np st.1 st.2)).Perm (eg.edges.map normE)
    rw [hcirc]
    exact hperm.symm
  · show ((circuit.map (fun st => (st.1, st.2, edgeWeight eg st.1 st.2))).length =
      eg.edges.length)
    rw [List.length_map, hcirc]
    have hl := hperm.length_eq
    rw [List.length_map, List.length_map] at hl
    omega

/-- Witness for C2 at the 4-cycle. -/
theorem claim_C2_witness :
    add_minimum_weight_matching ⟨[0, 1, 2, 3], [(0, 1, 1), (1, 2, 1), (2, 3, 1), (3, 0, 1)]⟩ =
      .ok (⟨[0, 1, 2, 3], [(0, 1, 1), (1, 2, 1), (2, 3, 1), (3, 0, 1)]⟩, 0) ∧
    solve_chinese_postman ⟨[0, 1, 2, 3], [(0, 1, 1), (1, 2, 1), (2, 3, 1), (3, 0, 1)]⟩ none =
      .ok ⟨4, [(0, 1, 1), (1, 2, 1), (2, 3, 1), (3, 0, 1)]⟩ ∧
    (((⟨4, [(0, 1, 1), (1, 2, 1), (2, 3, 1), (3, 0, 1)]⟩ : Solution).circuit.map
        (fun t => np t.1 t.2.1)).Perm
      ((⟨[0, 1, 2, 3], [(0, 1, 1), (1, 2, 1), (2, 3, 1), (3, 0, 1)]⟩ : G).edges.map normE) ∧
      (⟨4, [(0, 1, 1), (1, 2, 1), (2, 3, 1), (3, 0, 1)]⟩ : Solution).circuit.length =
        (⟨[0, 1, 2, 3], [(0, 1, 1), (1, 2, 1), (2, 3, 1), (3, 0, 1)]⟩ : G).edges.length) :=
  ⟨by decide, by decide,
    claim_C2 ⟨[0, 1, 2, 3], [(0, 1, 1), (1, 2, 1), (2, 3, 1), (3, 0, 1)]⟩ (by decide) none
      ⟨[0, 1, 2, 3], [(0, 1, 1), (1, 2, 1), (2, 3, 1), (3, 0, 1)]⟩ 0
      ⟨4, [(0, 1, 1), (1, 2, 1), (2, 3, 1), (3, 0, 1)]⟩ (by decide) (by decide)⟩

/-- C3.  When `solve` succeeds, the circuit is a closed walk from the resolved
start vertex: the target of each entry is the source of the next, and the
final target equals the start. -/
theorem claim_C3 (g : G) (hWF : WF g) (s? : Option Nat) (eg : G) (w : Nat) (sol : Solution)
    (hamm : add_minimum_weight_matching g = .ok (eg, w))
    (hsol : solve_chinese_postman g s? = .ok sol) :
    ∃ s, (s? = some s ∨ (s? = none ∧ s = eg.nodes.headD 0)) ∧
      isChainFrom s (sol.circuit.map (fun t => (t.1, t.2.1))) = true ∧
      chainEnd s (sol.circuit.map (fun t => (t.1, t.2.1))) = s := by
  obtain ⟨circuit, hfind, hsolEq⟩ := solve_ok_inv hamm hsol
  obtain ⟨s, hsmem, hiseu, hcirc, hs⟩ := find_eulerian_ok_inv hfind
  have hallz : ∀ z, degL eg.edges z % 2 = 0 :=
    degL_even_all (amm_eg_closed hWF hamm) (is_eulerian_true_inv hiseu).1
  obtain ⟨_, hDeven, _⟩ :=
    euler_master eg.edges.length eg.edges s le_rfl (amm_eg_noloop hWF hamm)
  obtain ⟨hchain, hend, _⟩ := hDeven hallz
  have hmapid : circuit.map (fun st : Nat × Nat => (st.1, st.2)) = circuit := by
    have hfun : (fun st : Nat × Nat => (st.1, st.2)) = id := by
      funext st
      rfl
    rw [hfun, List.map_id]
  subst hsolEq
  refine ⟨s, hs, ?_, ?_⟩
  · show isChainFrom s ((circuit.map (fun st => (st.1, st.2, edgeWeight eg st.1 st.2))).map
      (fun t => (t.1, t.2.1))) = true
    rw [List.map_map]
    show isChainFrom s (circuit.map (fun st : Nat × Nat => (st.1, st.2))) = true
    rw [hmapid, hcirc]
    exact hchain
  · show chainEnd s ((circuit.map (fun st => (st.1, st.2, edgeWeight eg st.1 st.2))).map
      (fun t => (t.1, t.2.1))) = s
    rw [List.map_map]
    show chainEnd s (circuit.map (fun st : Nat × Nat => (st.1, st.2))) = s
    rw [hmapid, hcirc]
    exact hend

/-- Witness for C3 at the 4-cycle. -/
theorem claim_C3_witness :
    add_minimum_weight_matching ⟨[0, 1, 2, 3], [(0, 1, 1), (1, 2, 1), (2, 3, 1), (3, 0, 1)]⟩ =
      .ok (⟨[0, 1, 2, 3], [(0, 1, 1), (1, 2, 1), (2, 3, 1), (3, 0, 1)]⟩, 0) ∧
    solve_chinese_postman ⟨[0, 1, 2, 3], [(0, 1, 1), (1, 2, 1), (2, 3, 1), (3, 0, 1)]⟩ none =
      .ok ⟨4, [(0, 1, 1), (1, 2, 1), (2, 3, 1), (3, 0, 1)]⟩ ∧
    ∃ s, (none = some s ∨ ((none : Option Nat) = none ∧
        s = (⟨[0, 1, 2, 3], [(0, 1, 1), (1, 2, 1), (2, 3, 1), (3, 0, 1)]⟩ : G).nodes.headD 0)) ∧
      isChainFrom s ((⟨4, [(0, 1, 1), (1, 2, 1), (2, 3, 1), (3, 0, 1)]⟩ : Solution).circuit.map
        (fun t => (t.1, t.2.1))) = true ∧
      chainEnd s ((⟨4, [(0, 1, 1), (1, 2, 1), (2, 3, 1), (3, 0, 1)]⟩ : Solution).circuit.map
        (fun t => (t.1, t.2.1))) = s :=
  ⟨by decide, by decide,
    claim_C3 ⟨[0, 1, 2, 3], [(0, 1, 1), (1, 2, 1), (2, 3, 1), (3, 0, 1)]⟩ (by decide) none
      ⟨[0, 1, 2, 3], [(0, 1, 1), (1, 2, 1), (2, 3, 1), (3, 0, 1)]⟩ 0
      ⟨4, [(0, 1, 1), (1, 2, 1), (2, 3, 1), (3, 0, 1)]⟩ (by decide) (by decide)⟩

/-! ### The auxiliary complete graph and pairs of odd vertices (C1 support) -/

theorem filterMap_all_some {α β : Type} (p : α → Option β) (f : α → β) :
    ∀ (l : List α), (∀ x ∈ l, p x = some (f x)) → l.filterMap p = l.map f := by
  intro l
  induction l with
  | nil => intro _; rfl
  | cons a l ih =>
    intro h
    rw [List.filterMap_cons, h a (List.mem_cons_self _ _), List.map_cons,
      ih (fun x hx => h x (List.mem_cons_of_mem _ hx))]

theorem mem_allPairs : ∀ {l : List Nat} {pr : Nat × Nat},
    pr ∈ allPairs l → pr.1 ∈ l ∧ pr.2 ∈ l := by
  intro l
  induction l with
  | nil => intro pr h; cases h
  | cons x xs ih =>
    intro pr h
    rw [allPairs] at h
    rcases List.mem_append.mp h with h1 | h2
    · obtain ⟨y, hy, hpr⟩ := List.mem_map.mp h1
      rw [← hpr]
      exact ⟨List.mem_cons_self _ _, List.mem_cons_of_mem _ hy⟩
    · obtain ⟨h3, h4⟩ := ih h2
      exact ⟨List.mem_cons_of_mem _ h3, List.mem_cons_of_mem _ h4⟩

theorem allPairs_sublist : ∀ {l1 l2 : List Nat}, l1.Sublist l2 →
    (allPairs l1).Sublist (allPairs l2) := by
  intro l1 l2 h
  induction h with
  | slnil => exact List.Sublist.refl _
  | cons a h ih =>
    rw [allPairs]
    exact ih.trans (List.sublist_append_right _ _)
  | cons₂ a h ih =>
    rw [allPairs, allPairs]
    exact List.Sublist.append (List.Sublist.map _ h) ih

theorem allPairs_erase {u : Nat} : ∀ {vs : List Nat}, vs.Nodup →
    allPairs (vs.erase u) =
      (allPairs vs).filter (fun pr => pr.1 != u && pr.2 != u) := by
  intro vs
  induction vs with
  | nil => intro _; rfl
  | cons a vs ih =>
    intro hnd
    have hand := List.nodup_cons.mp hnd
    by_cases hua : u = a
    · subst hua
      rw [List.erase_cons_head, allPairs, List.filter_append]
      have h1 : (vs.map (fun y => (u, y))).filter (fun pr => pr.1 != u && pr.2 != u) = [] := by
        rw [List.filter_eq_nil_iff]
        intro pr hpr
        obtain ⟨y, _, hy⟩ := List.mem_map.mp hpr
        rw [← hy]
        simp
      have h2 : (allPairs vs).filter (fun pr => pr.1 != u && pr.2 != u) = allPairs vs := by
        rw [List.filter_eq_self]
        intro pr hpr
        obtain ⟨hm1, hm2⟩ := mem_allPairs hpr
        have hne1 : pr.1 ≠ u := fun hh => hand.1 (hh ▸ hm1)
        have hne2 : pr.2 ≠ u := fun hh => hand.1 (hh ▸ hm2)
        simp [hne1, hne2]
      rw [h1, h2, List.nil_append]
    · rw [List.erase_cons_tail (by simpa using fun hh => hua hh.symm), allPairs, allPairs,
        List.filter_append, ih hand.2]
      congr 1
      rw [List.filter_map, hand.2.erase_eq_filter u]
      have hfun : ((fun pr : Nat × Nat => pr.1 != u && pr.2 != u) ∘ fun y => (a, y)) =
          fun y => (a != u) && (y != u) := rfl
      rw [hfun]
      have hcongr : vs.filter (fun y => (a != u) && (y != u)) = vs.filter (fun y => y != u) := by
        apply List.filter_congr
        intro y _
        have hau : (a != u) = true := by simpa using fun hh => hua hh.symm
        rw [hau, Bool.true_and]
      rw [hcongr]

theorem hasPathB_of_connectedB {g : G} (hWF : WF g) (hconn : connectedB g = true)
    {u v : Nat} (hu : u ∈ g.nodes) (hv : v ∈ g.nodes) : hasPathB g u v = true :=
  hasPathB_of_hasWalk (fun e he => ⟨(hWF.2.1 e he).1, (hWF.2.1 e he).2.1⟩)
    (connectedB_hasWalk hconn hu hv)

theorem buildK_eq_map {g : G} (hWF : WF g) (hconn : connectedB g = true) {odd : List Nat}
    (hsub : ∀ v ∈ odd, v ∈ g.nodes) :
    buildK g odd = (allPairs odd).map (fun p => (p.1, p.2, dist0 g p.1 p.2)) := by
  rw [buildK]
  apply filterMap_all_some
  intro pr hpr
  obtain ⟨h1, h2⟩ := mem_allPairs hpr
  rw [if_pos (hasPathB_of_connectedB hWF hconn (hsub _ h1) (hsub _ h2))]

/-! ### Perfect pairings of the odd vertices -/

theorem touched_length : ∀ (t : List (Nat × Nat)), (touched t).length = 2 * t.length := by
  intro t
  induction t with
  | nil => rfl
  | cons st t ih =>
    obtain ⟨a, b⟩ := st
    rw [touched_cons, List.length_cons, List.length_cons, ih, List.length_cons]
    omega

theorem pairingsF_touched_perm : ∀ (fuel : Nat) (l : List Nat) (M : List (Nat × Nat)),
    l.length ≤ fuel → M ∈ pairingsF fuel l → (touched M).Perm l := by
  intro fuel
  induction fuel with
  | zero =>
    intro l M hlen hM
    have hl : l = [] := List.length_eq_zero.mp (Nat.le_zero.mp hlen)
    subst hl
    rw [pairingsF] at hM
    simp only [List.mem_singleton] at hM
    subst hM
    exact List.Perm.refl _
  | succ fuel ih =>
    intro l M hlen hM
    cases l with
    | nil =>
      rw [pairingsF] at hM
      simp only [List.mem_singleton] at hM
      subst hM
      exact List.Perm.refl _
    | cons v vs =>
      rw [pairingsF] at hM
      obtain ⟨u, hu, hmap⟩ := List.mem_flatMap.mp hM
      obtain ⟨M', hM', hMe⟩ := List.mem_map.mp hmap
      subst hMe
      have hlen' : (vs.erase u).length ≤ fuel := by
        rw [List.length_erase_of_mem hu]
        rw [List.length_cons] at hlen
        omega
      have hIH := ih (vs.erase u) M' hlen' hM'
      rw [touched_cons]
      have h1 : (v :: u :: touched M').Perm (v :: u :: vs.erase u) := (hIH.cons u).cons v
      have h2 : (u :: vs.erase u).Perm vs := (List.perm_cons_erase hu).symm
      exact h1.trans (h2.cons v)

theorem pairingsF_sublist_allPairs : ∀ (fuel : Nat) (l : List Nat) (M : List (Nat × Nat)),
    l.length ≤ fuel → M ∈ pairingsF fuel l → M.Sublist (allPairs l) := by
  intro fuel
  induction fuel with
  | zero =>
    intro l M hlen hM
    have hl : l = [] := List.length_eq_zero.mp (Nat.le_zero.mp hlen)
    subst hl
    rw [pairingsF] at hM
    simp only [List.mem_singleton] at hM
    subst hM
    exact List.Sublist.refl _
  | succ fuel ih =>
    intro l M hlen hM
    cases l with
    | nil =>
      rw [pairingsF] at hM
      simp only [List.mem_singleton] at hM
      subst hM
      exact List.nil_sublist _
    | cons v vs =>
      rw [pairingsF] at hM
      obtain ⟨u, hu, hmap⟩ := List.mem_flatMap.mp hM
      obtain ⟨M', hM', hMe⟩ := List.mem_map.mp hmap
      subst hMe
      have hlen' : (vs.erase u).length ≤ fuel := by
        rw [List.length_erase_of_mem hu]
        rw [List.length_cons] at hlen
        omega
      have hIH : M'.Sublist (allPairs vs) :=
        (ih (vs.erase u) M' hlen' hM').trans (allPairs_sublist (List.erase_sublist u vs))
      obtain ⟨l₁, l₂, hsplit⟩ := List.append_of_mem
        (List.mem_map_of_mem (fun y => (v, y)) hu)
      rw [allPairs, hsplit]
      have h1 : ((v, u) :: M').Sublist ((v, u) :: (l₂ ++ allPairs vs)) :=
        List.Sublist.cons₂ _ (hIH.trans (List.sublist_append_right _ _))
      have h2 : ((v, u) :: (l₂ ++ allPairs vs)).Sublist
          (l₁ ++ (v, u) :: (l₂ ++ allPairs vs)) := List.sublist_append_right _ _
      have h3 := h1.trans h2
      rw [List.append_assoc]
      exact h3

theorem count_touched_map_fst (v : Nat) : ∀ (ys : List Nat),
    ys.length ≤ (touched (ys.map (fun y => (v, y)))).count v := by
  intro ys
  induction ys with
  | nil => simp [touched]
  | cons y ys ih =>
    rw [List.map_cons, touched_cons, count_cons_ind, count_cons_ind, if_pos rfl]
    rw [List.length_cons]
    by_cases h : v = y <;> omega

theorem pairingsF_complete : ∀ (fuel : Nat) (l : List Nat) (M : List (Nat × Nat)),
    l.length ≤ fuel → l.Nodup → M.Sublist (allPairs l) → (touched M).Perm l →
    M ∈ pairingsF fuel l := by
  intro fuel
  induction fuel with
  | zero =>
    intro l M hlen hnd hsub hperm
    have hl : l = [] := List.length_eq_zero.mp (Nat.le_zero.mp hlen)
    subst hl
    have hM : M = [] := by
      cases M with
      | nil => rfl
      | cons st M' =>
        exfalso
        have hpl := hperm.length_eq
        rw [touched_length] at hpl
        simp at hpl
    subst hM
    rw [pairingsF]
    exact List.mem_singleton.mpr rfl
  | succ fuel ih =>
    intro l M hlen hnd hsub hperm
    cases l with
    | nil =>
      have hM : M = [] := by
        cases M with
        | nil => rfl
        | cons st M' =>
          exfalso
          have hpl := hperm.length_eq
          rw [touched_length] at hpl
          simp at hpl
      subst hM
      rw [pairingsF]
      exact List.mem_singleton.mpr rfl
    | cons v vs =>
      have hand := List.nodup_cons.mp hnd
      have htchnd : (touched M).Nodup := hperm.nodup_iff.mpr hnd
      rw [allPairs] at hsub
      obtain ⟨M₁, M₂, hMsplit, hsub1, hsub2⟩ := List.sublist_append_iff.mp hsub
      obtain ⟨ys, hys, hM₁⟩ := List.sublist_map_iff.mp hsub1
      have hM₂ne : ∀ pr ∈ M₂, pr.1 ≠ v ∧ pr.2 ≠ v := by
        intro pr hpr
        obtain ⟨h1, h2⟩ := mem_allPairs (hsub2.subset hpr)
        exact ⟨fun hh => hand.1 (hh ▸ h1), fun hh => hand.1 (hh ▸ h2)⟩
      have hvM : v ∈ touched M := hperm.mem_iff.mpr (List.mem_cons_self _ _)
      have hvM₁ : v ∈ touched M₁ := by
        rw [hMsplit, touched_append] at hvM
        rcases List.mem_append.mp hvM with h | h
        · exact h
        · exfalso
          simp only [touched, List.mem_flatMap] at h
          obtain ⟨pr, hpr, hv⟩ := h
          simp only [List.mem_cons, List.not_mem_nil, or_false] at hv
          rcases hv with hv | hv
          · exact (hM₂ne pr hpr).1 hv.symm
          · exact (hM₂ne pr hpr).2 hv.symm
      have hys1 : ys.length ≤ 1 := by
        have hcount : (touched M).count v ≤ 1 :=
          List.nodup_iff_count_le_one.mp htchnd v
        rw [hMsplit, touched_append, List.count_append] at hcount
        have := count_touched_map_fst v ys
        rw [← hM₁] at this
        omega
      have hysne : ys ≠ [] := by
        intro hh
        rw [hh] at hM₁
        simp at hM₁
        rw [hM₁] at hvM₁
        cases hvM₁
      obtain ⟨u, hysu⟩ : ∃ u, ys = [u] := by
        cases hys' : ys with
        | nil => exact absurd hys' hysne
        | cons u ys' =>
          cases hys'' : ys' with
          | nil => exact ⟨u, rfl⟩
          | cons u2 ys'' =>
            exfalso
            rw [hys', hys''] at hys1
            simp at hys1
      subst hysu
      have hu : u ∈ vs := hys.subset (List.mem_singleton.mpr rfl)
      have hM₁eq : M₁ = [(v, u)] := by
        rw [hM₁]
        rfl
      rw [hM₁eq] at hMsplit
      rw [List.singleton_append] at hMsplit
      subst hMsplit
      have htM₂ : (touched M₂).Perm (vs.erase u) := by
        rw [touched_cons] at hperm
        have h1 : (u :: touched M₂).Perm vs := hperm.cons_inv
        have h2 : (u :: touched M₂).Perm (u :: vs.erase u) :=
          h1.trans (List.perm_cons_erase hu)
        exact h2.cons_inv
      have hunotin : u ∉ vs.erase u := hand.2.not_mem_erase
      have hM₂avoid : ∀ pr ∈ M₂, pr.1 ≠ u ∧ pr.2 ≠ u := by
        intro pr hpr
        have h1 := (mem_touched_of_mem hpr).1
        have h2 := (mem_touched_of_mem hpr).2
        constructor
        · intro hh
          exact hunotin (htM₂.subset (hh ▸ h1))
        · intro hh
          exact hunotin (htM₂.subset (hh ▸ h2))
      have hM₂sub : M₂.Sublist (allPairs (vs.erase u)) := by
        rw [allPairs_erase hand.2]
        have hself : M₂.filter (fun pr => pr.1 != u && pr.2 != u) = M₂ := by
          rw [List.filter_eq_self]
          intro pr hpr
          have := hM₂avoid pr hpr
          simp [this.1, this.2]
        rw [← hself]
        exact List.Sublist.filter _ hsub2
      have hlen' : (vs.erase u).length ≤ fuel := by
        rw [List.length_erase_of_mem hu]
        rw [List.length_cons] at hlen
        omega
      have hIH := ih (vs.erase u) M₂ hlen' (hand.2.erase u) hM₂sub htM₂
      rw [pairingsF]
      apply List.mem_flatMap.mpr
      exact ⟨u, hu, List.mem_map.mpr ⟨M₂, hIH, rfl⟩⟩

theorem pairingsF_exists : ∀ (fuel : Nat) (l : List Nat),
    l.length ≤ fuel → l.length % 2 = 0 → ∃ M, M ∈ pairingsF fuel l := by
  intro fuel
  induction fuel with
  | zero =>
    intro l hlen _
    have hl : l = [] := List.length_eq_zero.mp (Nat.le_zero.mp hlen)
    subst hl
    exact ⟨[], List.mem_singleton.mpr rfl⟩
  | succ fuel ih =>
    intro l hlen hpar
    cases l with
    | nil => exact ⟨[], List.mem_singleton.mpr rfl⟩
    | cons v vs =>
      cases vs with
      | nil => simp at hpar
      | cons u rest =>
        have hlen' : ((u :: rest).erase u).length ≤ fuel := by
          rw [List.erase_cons_head]
          simp only [List.length_cons] at hlen
          omega
        have hpar' : ((u :: rest).erase u).length % 2 = 0 := by
          rw [List.erase_cons_head]
          simp only [List.length_cons] at hpar
          omega
        obtain ⟨M', hM'⟩ := ih ((u :: rest).erase u) hlen' hpar'
        refine ⟨(v, u) :: M', ?_⟩
        rw [pairingsF]
        apply List.mem_flatMap.mpr
        exact ⟨u, List.mem_cons_self _ _, List.mem_map.mpr ⟨M', hM', rfl⟩⟩

/-! ### Weight accumulated by eulerization (C1 support) -/

theorem pathW_dupSteps (g : G) : ∀ (p : List Nat),
    ((dupSteps p).map (fun st => edgeWeight g st.1 st.2)).sum = pathW g p := by
  intro p
  match p with
  | [] => rfl
  | [x] => rfl
  | a :: b :: rest =>
    have h1 : dupSteps (a :: b :: rest) = (a, b) :: dupSteps (b :: rest) := rfl
    have h2 : pathW g (a :: b :: rest) = edgeWeight g a b + pathW g (b :: rest) := rfl
    rw [h1, h2, List.map_cons, List.sum_cons, pathW_dupSteps g (b :: rest)]

theorem addPathEdges_sum (g : G) (p : List Nat) :
    ((addPathEdges g p).map (fun e => e.2.2)).sum = pathW g p := by
  rw [addPathEdges, List.map_map]
  exact pathW_dupSteps g p

theorem ammGo_weight (g : G) : ∀ (M : List (Nat × Nat)) (es : List Edge) (w0 : Nat)
    (r : List Edge × Nat), ammGo g M es w0 = .ok r →
    r.2 = w0 + pairingWeight g M := by
  intro M
  induction M with
  | nil =>
    intro es w0 r h
    rw [ammGo] at h
    cases h
    simp [pairingWeight]
  | cons uv rest ih =>
    intro es w0 r h
    obtain ⟨u, v⟩ := uv
    rw [ammGo] at h
    cases hsp : shortest_path g u v with
    | none => rw [hsp] at h; cases h
    | some p =>
      rw [hsp] at h
      have hIH := ih _ _ _ h
      rw [hIH, addPathEdges_sum]
      have hd : pathW g p = dist0 g u v := (dist0_eq_pathW hsp).symm
      rw [hd]
      simp only [pairingWeight, List.map_cons, List.sum_cons]
      omega

/-! ### The exact matching model (C1 support) -/

theorem le_foldr_max : ∀ {l : List Nat} {a : Nat}, a ∈ l → a ≤ l.foldr max 0 := by
  intro l
  induction l with
  | nil => intro a h; cases h
  | cons x l ih =>
    intro a h
    rw [List.foldr_cons]
    rcases List.mem_cons.mp h with h1 | h2
    · rw [h1]
      exact Nat.le_max_left _ _
    · exact le_trans (ih h2) (Nat.le_max_right _ _)

theorem foldr_max_mem_or : ∀ (l : List Nat), l.foldr max 0 ∈ l ∨ l.foldr max 0 = 0 := by
  intro l
  induction l with
  | nil => right; rfl
  | cons x l ih =>
    rw [List.foldr_cons]
    rcases Nat.le_total (l.foldr max 0) x with hle | hle
    · left
      rw [Nat.max_eq_left hle]
      exact List.mem_cons_self _ _
    · rw [Nat.max_eq_right hle]
      rcases ih with hmem | hzero
      · left
        exact List.mem_cons_of_mem _ hmem
      · right
        exact hzero

theorem mem_allMatchings {es M : List Edge} :
    M ∈ allMatchings es ↔ M.Sublist es ∧ (endpointsL M).Nodup := by
  rw [allMatchings, List.mem_filter, List.mem_sublists, isMatchingL]
  simp only [decide_eq_true_eq]

theorem nil_mem_allMatchings (es : List Edge) : [] ∈ allMatchings es :=
  mem_allMatchings.mpr ⟨List.nil_sublist es, List.nodup_nil⟩

theorem le_maxMatchCard {es : List Edge} {M : List Edge} (h : M ∈ allMatchings es) :
    M.length ≤ maxMatchCard es := by
  rw [maxMatchCard]
  exact le_foldr_max (List.mem_map_of_mem _ h)

theorem maxMatchCard_attained (es : List Edge) :
    ∃ M ∈ allMatchings es, M.length = maxMatchCard es := by
  rcases foldr_max_mem_or ((allMatchings es).map List.length) with hmem | hzero
  · obtain ⟨M, hM, hlen⟩ := List.mem_map.mp hmem
    exact ⟨M, hM, hlen⟩
  · refine ⟨[], nil_mem_allMatchings es, ?_⟩
    rw [maxMatchCard, hzero]
    rfl

theorem matching_card_le {g : G} {odd : List Nat} {M : List Edge}
    (h : M ∈ allMatchings (buildK g odd)) : 2 * M.length ≤ odd.length := by
  obtain ⟨hsub, hnd⟩ := mem_allMatchings.mp h
  have hep : ∀ x ∈ endpointsL M, x ∈ odd := by
    intro x hx
    rcases mem_endpointsL.mp hx with ⟨e, he, hor⟩
    obtain ⟨_, _, hpr⟩ := buildK_mem (hsub.subset he)
    obtain ⟨h1, h2⟩ := mem_allPairs hpr
    rcases hor with hh | hh
    · exact hh ▸ h1
    · exact hh ▸ h2
  have hle := nodup_subset_length hnd hep
  rw [endpointsL_length] at hle
  exact hle

theorem odd_length_even (g : G) (hWF : WF g) :
    (find_odd_degree_vertices g).length % 2 = 0 := by
  rw [find_odd_length, odd_count_parity, degL_sum g hWF]
  omega

theorem endpointsL_map_pairs (g : G) : ∀ (P : List (Nat × Nat)),
    endpointsL (P.map (fun p => (p.1, p.2, dist0 g p.1 p.2))) = touched P := by
  intro P
  induction P with
  | nil => rfl
  | cons pr P ih =>
    obtain ⟨a, b⟩ := pr
    rw [List.map_cons, endpointsL_cons, touched_cons, ih]

theorem touched_strip : ∀ (M : List Edge),
    touched (M.map (fun e => (e.1, e.2.1))) = endpointsL M := by
  intro M
  induction M with
  | nil => rfl
  | cons e M ih =>
    rw [List.map_cons, touched_cons, endpointsL_cons, ih]

theorem map_wfn_weight (g : G) (P : List (Nat × Nat)) :
    ((P.map (fun p => (p.1, p.2, dist0 g p.1 p.2))).map (fun e => e.2.2)).sum =
      pairingWeight g P := by
  rw [List.map_map]
  rfl

theorem pairing_matching {g : G} (hWF : WF g) (hconn : connectedB g = true)
    {P : List (Nat × Nat)} (hP : P ∈ pairings (find_odd_degree_vertices g)) :
    (P.map (fun p => (p.1, p.2, dist0 g p.1 p.2))) ∈
      allMatchings (buildK g (find_odd_degree_vertices g)) ∧
    2 * P.length = (find_odd_degree_vertices g).length := by
  have hoddnd : (find_odd_degree_vertices g).Nodup := hWF.1.filter _
  have hoddsub : ∀ v ∈ find_odd_degree_vertices g, v ∈ g.nodes :=
    fun v hv => List.mem_of_mem_filter hv
  have hK := buildK_eq_map hWF hconn hoddsub
  rw [pairings] at hP
  have hsub := pairingsF_sublist_allPairs _ _ _ le_rfl hP
  have ht := pairingsF_touched_perm _ _ _ le_rfl hP
  constructor
  · apply mem_allMatchings.mpr
    constructor
    · rw [hK]
      exact hsub.map _
    · rw [endpointsL_map_pairs]
      exact ht.nodup_iff.mpr hoddnd
  · have hlen := ht.length_eq
    rw [touched_length] at hlen
    exact hlen

theorem maxMatchCard_eq {g : G} (hWF : WF g) (hconn : connectedB g = true) :
    2 * maxMatchCard (buildK g (find_odd_degree_vertices g)) =
      (find_odd_degree_vertices g).length := by
  obtain ⟨M0, hM0, hM0len⟩ := maxMatchCard_attained (buildK g (find_odd_degree_vertices g))
  have h1 : 2 * maxMatchCard (buildK g (find_odd_degree_vertices g)) ≤
      (find_odd_degree_vertices g).length := by
    rw [← hM0len]
    exact matching_card_le hM0
  obtain ⟨P0, hP0⟩ := pairingsF_exists (find_odd_degree_vertices g).length
    (find_odd_degree_vertices g) le_rfl (odd_length_even g hWF)
  have hP0m : P0 ∈ pairings (find_odd_degree_vertices g) := by
    rw [pairings]
    exact hP0
  obtain ⟨hP0all, hP0len⟩ := pairing_matching hWF hconn hP0m
  have h2 := le_maxMatchCard hP0all
  rw [List.length_map] at h2
  omega

/-- C1.  For a connected graph with at least one odd-degree vertex, the added
weight returned by `add_minimum_weight_matching` is exactly the weight of a
minimum-weight perfect matching of the odd-degree vertices on the auxiliary
complete graph `K`, where a pair costs the shortest-path distance between its
vertices: no approximate or greedy matching is substituted. -/
theorem claim_C1 (g : G) (hWF : WF g) (hconn : connectedB g = true)
    (hodd : find_odd_degree_vertices g ≠ []) (eg : G) (w : Nat)
    (h : add_minimum_weight_matching g = .ok (eg, w)) :
    minPerfectWeight g (find_odd_degree_vertices g) = some w := by
  have hoddnd : (find_odd_degree_vertices g).Nodup := hWF.1.filter _
  have hoddsub : ∀ v ∈ find_odd_degree_vertices g, v ∈ g.nodes :=
    fun v hv => List.mem_of_mem_filter hv
  have hK := buildK_eq_map hWF hconn hoddsub
  have hne : ¬ (find_odd_degree_vertices g).isEmpty = true := by
    simpa [List.isEmpty_iff] using hodd
  rw [add_minimum_weight_matching, if_neg hne] at h
  cases hgo : ammGo g (min_weight_matching (buildK g (find_odd_degree_vertices g)))
      g.edges 0 with
  | error e => rw [hgo] at h; cases h
  | ok r =>
    rw [hgo] at h
    have hwr := ammGo_weight g _ _ _ _ hgo
    obtain ⟨es₂, w₂⟩ := r
    cases h
    cases harg : ((allMatchings (buildK g (find_odd_degree_vertices g))).filter
        (fun M => M.length == maxMatchCard (buildK g (find_odd_degree_vertices g)))).argmin
        (fun M => (M.map (fun e => e.2.2)).sum) with
    | none =>
      exfalso
      obtain ⟨M0, hM0, hM0len⟩ :=
        maxMatchCard_attained (buildK g (find_odd_degree_vertices g))
      have hM0f : M0 ∈ (allMatchings (buildK g (find_odd_degree_vertices g))).filter
          (fun M => M.length == maxMatchCard (buildK g (find_odd_degree_vertices g))) :=
        List.mem_filter.mpr ⟨hM0, by simpa using hM0len⟩
      rw [List.argmin_eq_none] at harg
      rw [harg] at hM0f
      cases hM0f
    | some chosen =>
      have hmwm : min_weight_matching (buildK g (find_odd_degree_vertices g)) =
          chosen.map (fun e => (e.1, e.2.1)) := by
        rw [min_weight_matching, harg]
      have hch_all : chosen ∈ allMatchings (buildK g (find_odd_degree_vertices g)) :=
        List.mem_of_mem_filter (List.argmin_mem harg)
      have hch_card : chosen.length =
          maxMatchCard (buildK g (find_odd_degree_vertices g)) := by
        have hcf := (List.mem_filter.mp (List.argmin_mem harg)).2
        simpa using hcf
      obtain ⟨hch_sub, hch_nd⟩ := mem_allMatchings.mp hch_all
      have hch_ep : ∀ x ∈ endpointsL chosen, x ∈ find_odd_degree_vertices g := by
        intro x hx
        rcases mem_endpointsL.mp hx with ⟨e, he, hor⟩
        obtain ⟨_, _, hpr⟩ := buildK_mem (hch_sub.subset he)
        obtain ⟨h1, h2⟩ := mem_allPairs hpr
        rcases hor with hh | hh
        · exact hh ▸ h1
        · exact hh ▸ h2
      have hch_len : 2 * chosen.length = (find_odd_degree_vertices g).length := by
        rw [hch_card]
        exact maxMatchCard_eq hWF hconn
      have hch_perm : (endpointsL chosen).Perm (find_odd_degree_vertices g) := by
        apply (hch_nd.subperm hch_ep).perm_of_length_le
        rw [endpointsL_length]
        omega
      have hcp_sub : (chosen.map (fun e => (e.1, e.2.1))).Sublist
          (allPairs (find_odd_degree_vertices g)) := by
        have h1 := hch_sub.map (fun e : Edge => (e.1, e.2.1))
        rw [hK, List.map_map] at h1
        have hid : ((fun e : Edge => (e.1, e.2.1)) ∘
            (fun p : Nat × Nat => (p.1, p.2, dist0 g p.1 p.2))) = id := by
          funext p
          rfl
        rw [hid, List.map_id] at h1
        exact h1
      have hcp_mem : chosen.map (fun e => (e.1, e.2.1)) ∈
          pairings (find_odd_degree_vertices g) := by
        rw [pairings]
        apply pairingsF_complete _ _ _ le_rfl hoddnd hcp_sub
        rw [touched_strip]
        exact hch_perm
      have hch_w : (chosen.map (fun e => e.2.2)).sum =
          pairingWeight g (chosen.map (fun e => (e.1, e.2.1))) := by
        rw [pairingWeight, List.map_map]
        congr 1
        apply List.map_congr_left
        intro e he
        obtain ⟨_, hw2, _⟩ := buildK_mem (hch_sub.subset he)
        exact hw2
      rw [minPerfectWeight]
      cases hargP : (pairings (find_odd_degree_vertices g)).argmin (pairingWeight g) with
      | none =>
        rw [List.argmin_eq_none] at hargP
        rw [hargP] at hcp_mem
        cases hcp_mem
      | some Pstar =>
        have hle1 : pairingWeight g Pstar ≤
            pairingWeight g (chosen.map (fun e => (e.1, e.2.1))) :=
          List.le_of_mem_argmin hcp_mem hargP
        have hPmem : Pstar ∈ pairings (find_odd_degree_vertices g) := List.argmin_mem hargP
        obtain ⟨hPall, hPlen⟩ := pairing_matching hWF hconn hPmem
        have hPcard : (Pstar.map (fun p => (p.1, p.2, dist0 g p.1 p.2))).length =
            maxMatchCard (buildK g (find_odd_degree_vertices g)) := by
          rw [List.length_map]
          have hmm := maxMatchCard_eq hWF hconn
          omega
        have hPf : (Pstar.map (fun p => (p.1, p.2, dist0 g p.1 p.2))) ∈
            (allMatchings (buildK g (find_odd_degree_vertices g))).filter
            (fun M => M.length == maxMatchCard (buildK g (find_odd_degree_vertices g))) :=
          List.mem_filter.mpr ⟨hPall, by simpa using hPcard⟩
        have hle2 := List.le_of_mem_argmin hPf harg
        simp only [map_wfn_weight, hch_w] at hle2
        have heq : pairingWeight g Pstar =
            pairingWeight g (chosen.map (fun e => (e.1, e.2.1))) :=
          le_antisymm hle1 hle2
        show some (pairingWeight g Pstar) = some w
        have hwr2 : w = 0 + pairingWeight g
            (min_weight_matching (buildK g (find_odd_degree_vertices g))) := hwr
        rw [hmwm] at hwr2
        rw [heq, hwr2, Nat.zero_add]

/-- Witness for C1 at the path graph 0–1–2 (odd vertices 0 and 2, duplicated
path weight 2). -/
theorem claim_C1_witness :
    WF ⟨[0, 1, 2], [(0, 1, 1), (1, 2, 1)]⟩ ∧
    connectedB ⟨[0, 1, 2], [(0, 1, 1), (1, 2, 1)]⟩ = true ∧
    find_odd_degree_vertices ⟨[0, 1, 2], [(0, 1, 1), (1, 2, 1)]⟩ ≠ [] ∧
    add_minimum_weight_matching ⟨[0, 1, 2], [(0, 1, 1), (1, 2, 1)]⟩ =
      .ok (⟨[0, 1, 2], [(0, 1, 1), (1, 2, 1), (0, 1, 1), (1, 2, 1)]⟩, 2) ∧
    minPerfectWeight ⟨[0, 1, 2], [(0, 1, 1), (1, 2, 1)]⟩
      (find_odd_degree_vertices ⟨[0, 1, 2], [(0, 1, 1), (1, 2, 1)]⟩) = some 2 :=
  ⟨by decide, by decide, by decide, by decide,
    claim_C1 ⟨[0, 1, 2], [(0, 1, 1), (1, 2, 1)]⟩ (by decide) (by decide) (by decide)
      ⟨[0, 1, 2], [(0, 1, 1), (1, 2, 1), (0, 1, 1), (1, 2, 1)]⟩ 2 (by decide)⟩

end CPP
